import Mathlib

/-!
Shallow embedding of `networkx/algorithms/minors.py` (the quotient-graph /
contraction module): `equivalence_classes`, `quotient_graph`,
`contracted_nodes`, `contracted_edge` and `blockmodel`, together with the
fragment of the NetworkX graph abstraction those functions use.

Modelling conventions:
* Node identifiers of source graphs are natural numbers (`NodeId.nat`);
  quotient-graph nodes are frozensets of node identifiers (`NodeId.blk`).
* Attribute dictionaries are association lists `List (String × Val)` with
  Python-dict update semantics (existing keys keep their position, new keys
  are appended).  Attribute values are integers, rationals (for `density`),
  contraction records, and subgraph snapshots.
* Graphs are edge lists plus node lists; a multigraph may hold parallel
  entries in its edge list.  Dict iteration is modelled as insertion order.
* `G[u]` neighbour lookup is modelled as an adjacency test that is `false`
  when `u` is not a node (the source would raise `KeyError` there; none of
  the verified claims depends on that corner).
* Floating point `density` values are modelled as exact rationals.
-/

set_option linter.unusedVariables false

/-- Node identifiers: either an original (integer) node of a source graph, or
a frozenset of original nodes, as used for the nodes of a quotient graph. -/
inductive NodeId where
  | nat : Nat → NodeId
  | blk : Finset Nat → NodeId
deriving DecidableEq

/-- Attribute values stored in node/edge attribute dictionaries: integers,
rationals (for `density`), contraction records (`H.node[u]['contraction']`,
a dict from absorbed node id to its attribute snapshot), and subgraph
snapshots (the `graph` entry of the default quotient node data). -/
inductive Val where
  | int : Int → Val
  | num : Rat → Val
  | cmap : List (NodeId × List (String × Val)) → Val
  | sub : Bool → Bool → List (NodeId × List (String × Val)) →
      List (NodeId × NodeId × List (String × Val)) → Val

/-- A Python attribute dictionary, as an insertion-ordered association list. -/
abbrev Attr := List (String × Val)

/-- `m.get(k)`: first value bound to key `k`, if any. -/
def assocFind? [DecidableEq κ] (m : List (κ × β)) (k : κ) : Option β :=
  (m.find? (fun p => decide (p.1 = k))).map Prod.snd

/-- `m[k] = v` with Python dict semantics: an existing key keeps its position
and gets the new value; a new key is appended at the end. -/
def assocSet [DecidableEq κ] (m : List (κ × β)) (k : κ) (v : β) : List (κ × β) :=
  if (m.find? (fun p => decide (p.1 = k))).isSome then
    m.map (fun p => if p.1 = k then (k, v) else p)
  else m ++ [(k, v)]

/-- `m.update(m')`: fold the entries of `m'` into `m` in order. -/
def dictUpdate [DecidableEq κ] (m m' : List (κ × β)) : List (κ × β) :=
  m'.foldl (fun acc p => assocSet acc p.1 p.2) m

/-- A NetworkX graph: `directed`/`multigraph` flags, nodes with attribute
dicts, and an edge list with attribute dicts.  A multigraph may have several
entries for the same node pair.  An undirected graph stores each edge once,
in an arbitrary orientation. -/
structure Graph where
  directed : Bool
  multigraph : Bool
  nodes : List (NodeId × Attr)
  edges : List (NodeId × NodeId × Attr)

/-- The node identifiers of `G`, in insertion order (`list(G)`). -/
def Graph.nodeIds (G : Graph) : List NodeId := G.nodes.map Prod.fst

/-- `v in G[u]`: `v` is a neighbour (successor, when directed) of `u`.
Also the meaning of `G.has_edge(u, v)`. -/
def Graph.adjB (G : Graph) (u v : NodeId) : Bool :=
  G.edges.any (fun e => decide (e.1 = u) && decide (e.2.1 = v)) ||
    (!G.directed && G.edges.any (fun e => decide (e.1 = v) && decide (e.2.1 = u)))

/-- Does edge entry `e` join `u` and `v` (in either orientation when the
graph is undirected)?  Used by `add_edge` to find an existing edge. -/
def sameEdgeB (directed : Bool) (u v : NodeId) (e : NodeId × NodeId × Attr) : Bool :=
  (decide (e.1 = u) && decide (e.2.1 = v)) ||
    (!directed && decide (e.1 = v) && decide (e.2.1 = u))

/-- `G.get_edge_data(u, v, default)`: attribute dict of the first edge entry
joining `u` and `v`, else the default.  (For a multigraph the source returns
a keyed dict of all parallel entries; the model returns the first entry's
data — only the entry count, not this shape, is used by the claims.) -/
def Graph.getEdgeData (G : Graph) (u v : NodeId) (dflt : Attr) : Attr :=
  match G.edges.find? (sameEdgeB G.directed u v) with
  | some e => e.2.2
  | none => dflt

/-- `G.add_node(n, d)`: a present node has its attribute dict updated with
`d`; a new node is appended. -/
def Graph.addNode (G : Graph) (n : NodeId) (d : Attr) : Graph :=
  if n ∈ G.nodeIds then
    { G with nodes := G.nodes.map (fun p => if p.1 = n then (p.1, dictUpdate p.2 d) else p) }
  else { G with nodes := G.nodes ++ [(n, d)] }

/-- `G.add_nodes_from(l)`. -/
def Graph.addNodesFrom (G : Graph) (l : List (NodeId × Attr)) : Graph :=
  l.foldl (fun g p => g.addNode p.1 p.2) G

/-- `G.add_edge(u, v, d)`: missing endpoints are added as attribute-free
nodes; in a multigraph a fresh parallel entry is appended; in a simple graph
an existing edge has its dict updated with `d`, else the entry is appended. -/
def Graph.addEdge (G : Graph) (u v : NodeId) (d : Attr) : Graph :=
  let G := if u ∈ G.nodeIds then G else { G with nodes := G.nodes ++ [(u, ([] : Attr))] }
  let G := if v ∈ G.nodeIds then G else { G with nodes := G.nodes ++ [(v, ([] : Attr))] }
  if G.multigraph then { G with edges := G.edges ++ [(u, v, d)] }
  else if (G.edges.any (sameEdgeB G.directed u v)) then
    let es := G.edges.map
      (fun e => if sameEdgeB G.directed u v e then (e.1, e.2.1, dictUpdate e.2.2 d) else e)
    { G with edges := es }
  else { G with edges := G.edges ++ [(u, v, d)] }

/-- `G.add_edges_from(es)`. -/
def Graph.addEdgesFrom (G : Graph) (es : List (NodeId × NodeId × Attr)) : Graph :=
  es.foldl (fun g e => g.addEdge e.1 e.2.1 e.2.2) G

/-- `G.remove_node(v)`: drop the node and every incident edge. -/
def Graph.removeNode (G : Graph) (v : NodeId) : Graph :=
  { G with nodes := G.nodes.filter (fun p => !decide (p.1 = v)),
           edges := G.edges.filter (fun e => !decide (e.1 = v) && !decide (e.2.1 = v)) }

/-- `G.node[v]`: the attribute dict of node `v` (the source raises
`KeyError` when `v` is absent; the claims only use present nodes). -/
def Graph.nodeAttr (G : Graph) (v : NodeId) : Attr :=
  ((G.nodes.find? (fun p => decide (p.1 = v))).map Prod.snd).getD []

/-- Replace the attribute dict of node `v` by `f` applied to it. -/
def Graph.updateNodeAttr (G : Graph) (v : NodeId) (f : Attr → Attr) : Graph :=
  { G with nodes := G.nodes.map (fun p => if p.1 = v then (p.1, f p.2) else p) }

/-- `G.edges(v, data=True)` for an undirected graph: the edges incident to
`v`, each reported once and oriented with `v` first. -/
def Graph.edgesIncident (G : Graph) (v : NodeId) : List (NodeId × NodeId × Attr) :=
  (G.edges.filter (fun e => decide (e.1 = v) || decide (e.2.1 = v))).map
    (fun e => if e.1 = v then e else (v, e.1, e.2.2))

/-- The two reportable errors of the module: an invalid partition
(`NetworkXException('each node must be in exactly one block')`) and a
contraction request on a missing edge (`ValueError`). -/
inductive Err where
  | partitionInvalid : Err
  | edgeNotFound : Err
deriving DecidableEq

/-- Update of `H.node[u]` performed at the end of `contracted_nodes`:
`H.node[u]['contraction'][v] = v_data` when a contraction record exists,
else `H.node[u]['contraction'] = {v: v_data}`.  (A present non-dict
`'contraction'` value would raise `TypeError` in the source; that case is
unreachable for graphs produced by this module and is modelled as starting
a fresh record.) -/
def contractionUpdate (a : Attr) (v : NodeId) (vd : Attr) : Attr :=
  match assocFind? a "contraction" with
  | some (Val.cmap m) => assocSet a "contraction" (Val.cmap (assocSet m v vd))
  | some _ => assocSet a "contraction" (Val.cmap (assocSet ([] : List (NodeId × Attr)) v vd))
  | none => assocSet a "contraction" (Val.cmap [(v, vd)])

/-- `contracted_nodes(G, u, v, self_loops)`, statement by statement from the
source.  The first component of the result is the input graph as left behind
by the call (every mutation in the source targets the copy `H`, never `G`);
the second component is the returned graph. -/
def contracted_nodes_impl (G : Graph) (u v : NodeId) (self_loops : Bool) :
    Graph × Graph :=
  let H := G
  let in_edges := (G.edges.filter (fun e => decide (e.2.1 = v))).filterMap
      (fun e => if self_loops || !decide (e.1 = u) then some (e.1, u, e.2.2) else none)
  let out_edges := (G.edges.filter (fun e => decide (e.1 = v))).filterMap
      (fun e => if self_loops || !decide (e.2.1 = u) then some (u, e.2.1, e.2.2) else none)
  let und_edges := (G.edgesIncident v).filterMap
      (fun e => if self_loops || !decide (e.2.1 = u) then some (u, e.2.1, e.2.2) else none)
  let new_edges := if H.directed then in_edges ++ out_edges else und_edges
  let v_data := H.nodeAttr v
  let H := H.removeNode v
  let H := H.addEdgesFrom new_edges
  let H := H.updateNodeAttr u (fun a => contractionUpdate a v v_data)
  (G, H)

/-- The graph returned by `contracted_nodes`. -/
def contracted_nodes (G : Graph) (u v : NodeId) (self_loops : Bool) : Graph :=
  (contracted_nodes_impl G u v self_loops).2

/-- `contracted_edge(G, edge, self_loops)`: `ValueError` unless the edge
exists, else delegate to `contracted_nodes`.  First component as in
`contracted_nodes_impl`. -/
def contracted_edge_impl (G : Graph) (edge : NodeId × NodeId) (self_loops : Bool) :
    Graph × Except Err Graph :=
  if G.adjB edge.1 edge.2 then
    (G, Except.ok (contracted_nodes G edge.1 edge.2 self_loops))
  else (G, Except.error Err.edgeNotFound)

/-- The result of `contracted_edge`. -/
def contracted_edge (G : Graph) (edge : NodeId × NodeId) (self_loops : Bool) :
    Except Err Graph :=
  (contracted_edge_impl G edge self_loops).2

/-- `n in b` for a block `b` of original node identifiers: only an original
(integer) node can be a member of a block. -/
def NodeId.memB (v : NodeId) (b : Finset Nat) : Bool :=
  match v with
  | NodeId.nat n => decide (n ∈ b)
  | NodeId.blk _ => false

/-- `itertools.product(xs, ys)`. -/
def listProd (xs ys : List Nat) : List (Nat × Nat) :=
  xs.flatMap (fun x => ys.map (fun y => (x, y)))

/-- `itertools.combinations(l, 2)`: unordered pairs, each once, in order. -/
def unorderedPairs {α : Type} : List α → List (α × α)
  | [] => []
  | x :: xs => xs.map (fun y => (x, y)) ++ unorderedPairs xs

/-- `itertools.permutations(l, 2)`: all ordered pairs of distinct entries. -/
def orderedPairs {α : Type} [DecidableEq α] (l : List α) : List (α × α) :=
  l.flatMap (fun x => (l.filter (fun y => !decide (y = x))).map (fun y => (x, y)))

/-- The iteration order of a block: Python frozenset iteration order is
unspecified; the model fixes the increasing order of the identifiers (each
member listed exactly once).  The claims never depend on this order. -/
def blockList (b : Finset Nat) : List Nat :=
  match b.max with
  | none => []
  | some m => (List.range (m + 1)).filter (fun n => decide (n ∈ b))

/-- `G.subgraph(b)`: induced subgraph on the members of block `b` (missing
identifiers are silently ignored, as in the source). -/
def Graph.subgraphB (G : Graph) (b : Finset Nat) : Graph :=
  { directed := G.directed, multigraph := G.multigraph,
    nodes := G.nodes.filter (fun p => p.1.memB b),
    edges := G.edges.filter (fun e => e.1.memB b && e.2.1.memB b) }

/-- `networkx.density`, as an exact rational. -/
def densityQ (G : Graph) : Rat :=
  let n : Int := G.nodes.length
  let m : Int := G.edges.length
  if m = 0 ∨ n ≤ 1 then 0
  else if G.directed then (m : Rat) / ((n : Rat) * ((n : Rat) - 1))
  else 2 * (m : Rat) / ((n : Rat) * ((n : Rat) - 1))

/-- The default `node_data` of `quotient_graph`:
`dict(graph=S, nnodes=len(S), nedges=S.number_of_edges(), density=density(S))`
for `S = G.subgraph(b)`. -/
def defaultNodeData (G : Graph) (b : Finset Nat) : Attr :=
  let S := G.subgraphB b
  [("graph", Val.sub S.directed S.multigraph S.nodes S.edges),
   ("nnodes", Val.int S.nodes.length),
   ("nedges", Val.int S.edges.length),
   ("density", Val.num (densityQ S))]

/-- The default `edge_relation` of `quotient_graph`:
`any(v in G[u] for u, v in product(b, c))`. -/
def defaultEdgeRelation (G : Graph) (b c : Finset Nat) : Bool :=
  (listProd (blockList b) (blockList c)).any
    (fun uv => G.adjB (NodeId.nat uv.1) (NodeId.nat uv.2))

/-- Does edge entry `e` cross between blocks `b` and `c` (in either
direction)?  The selection `(u in b and v in c) or (u in c and v in b)` of
the default `edge_data`. -/
def crossB (b c : Finset Nat) (e : NodeId × NodeId × Attr) : Bool :=
  (e.1.memB b && e.2.1.memB c) || (e.1.memB c && e.2.1.memB b)

/-- `d.get('weight', 1)`.  Attribute values other than integers are outside
the model (a non-numeric weight would make the source's `sum` fail). -/
def weightOf (d : Attr) : Int :=
  match assocFind? d "weight" with
  | some (Val.int i) => i
  | some _ => 1
  | none => 1

/-- `G.edges(nbunch, data=True)`: for a directed graph the out-edges of the
nodes in `nbunch`; for an undirected graph every incident edge, once.  (The
source reports an undirected incident edge oriented with its `nbunch`
endpoint first; the model keeps the stored orientation — the only consumer,
the symmetric crossing filter of the default `edge_data`, cannot tell the
difference.) -/
def Graph.edgesNbunch (G : Graph) (S : Finset Nat) : List (NodeId × NodeId × Attr) :=
  if G.directed then G.edges.filter (fun e => e.1.memB S)
  else G.edges.filter (fun e => e.1.memB S || e.2.1.memB S)

/-- The default `edge_data` of `quotient_graph`: the total `weight` (1 per
weightless edge) of the edges of `G` joining block `b` to block `c`, scanned
via `G.edges(b | c, data=True)`. -/
def defaultEdgeData (G : Graph) (b c : Finset Nat) : Attr :=
  [("weight",
    Val.int (((G.edgesNbunch (b ∪ c)).filter (crossB b c)).foldl
      (fun s e => s + weightOf e.2.2) 0))]

/-- A graph template, standing for the `create_using` argument: the class of
the instance determines the directed/multigraph flags of the result. -/
structure GraphKind where
  directed : Bool
  multigraph : Bool

/-- The flags of the quotient graph: those of `create_using` if supplied,
else those of `G` (`type(create_using)() if create_using is not None else
type(G)()`). -/
def kindOf (G : Graph) (create_using : Option GraphKind) : GraphKind :=
  match create_using with
  | some k => k
  | none => { directed := G.directed, multigraph := G.multigraph }

/-- The blocks serving as nodes of the partly built quotient graph `H`, in
`H`'s iteration order. -/
def Graph.blockNodes (G : Graph) : List (Finset Nat) :=
  G.nodeIds.filterMap (fun n => match n with
    | NodeId.blk b => some b
    | NodeId.nat _ => none)

/-- `labels = {b: i for i, b in enumerate(partition)}` (a later duplicate
block overwrites the earlier index), then `mapping.get(n, n)`. -/
def relabelMapping (partition : List (Finset Nat)) (n : NodeId) : NodeId :=
  let labels : List (Finset Nat × Nat) :=
    (partition.enum).foldl (fun m p => assocSet m p.2 p.1) []
  match n with
  | NodeId.blk b =>
      match assocFind? labels b with
      | some i => NodeId.nat i
      | none => n
  | _ => n

/-- `networkx.relabel_nodes(H, labels)` (copy variant): rebuild the graph,
passing every node and edge through the mapping. -/
def relabel_nodes (H : Graph) (f : NodeId → NodeId) : Graph :=
  let H2 : Graph := { directed := H.directed, multigraph := H.multigraph,
                      nodes := [], edges := [] }
  let H2 := H2.addNodesFrom (H.nodes.map (fun p => (f p.1, p.2)))
  H2.addEdgesFrom (H.edges.map (fun e => (f e.1, f e.2.1, e.2.2)))

/-- `quotient_graph(G, partition, edge_relation, node_data, edge_data,
relabel, create_using)` with an explicit block collection, step by step from
the source.  The first component of the result is the input graph as left
behind by the call (the source never mutates `G`); the second is the raised
error or the returned quotient graph.  (The callable-partition form first
derives the partition with `equivalence_classes`; its iteration order over a
Python set is unspecified and is not modelled.) -/
def quotientBase (G : Graph) (partition : List (Finset Nat))
    (node_data : Option (Finset Nat → Attr))
    (create_using : Option GraphKind) : Graph :=
  let K := kindOf G create_using
  let H : Graph := { directed := K.directed, multigraph := K.multigraph,
                     nodes := [], edges := [] }
  let node_dataF := match node_data with
    | some f => f
    | none => defaultNodeData G
  H.addNodesFrom (partition.map (fun b => (NodeId.blk b, node_dataF b)))

/-- Steps 5–6 of `quotient_graph`: the edge tuples fed to
`H.add_edges_from`, produced lazily from the block-pair enumeration of the
partly built `H` of `quotientBase`. -/
def quotientEdgesList (G : Graph) (partition : List (Finset Nat))
    (edge_relation : Option (Finset Nat → Finset Nat → Bool))
    (node_data : Option (Finset Nat → Attr))
    (edge_data : Option (Finset Nat → Finset Nat → Attr))
    (create_using : Option GraphKind) : List (NodeId × NodeId × Attr) :=
  let H := quotientBase G partition node_data create_using
  let edge_relationF := match edge_relation with
    | some f => f
    | none => defaultEdgeRelation G
  let edge_dataF := match edge_data with
    | some f => f
    | none => defaultEdgeData G
  let block_pairs := if H.directed then orderedPairs H.blockNodes
    else unorderedPairs H.blockNodes
  if H.multigraph then
    (block_pairs.filter (fun bc => edge_relationF bc.1 bc.2)).flatMap
      (fun bc => (listProd (blockList bc.1) (blockList bc.2)).filterMap
        (fun uv => if G.adjB (NodeId.nat uv.1) (NodeId.nat uv.2) then
            some (NodeId.blk bc.1, NodeId.blk bc.2,
              G.getEdgeData (NodeId.nat uv.1) (NodeId.nat uv.2) [])
          else none))
  else
    block_pairs.filterMap (fun bc => if edge_relationF bc.1 bc.2 then
        some (NodeId.blk bc.1, NodeId.blk bc.2, edge_dataF bc.1 bc.2)
      else none)

/-- Steps 3–8 of `quotient_graph` after a successful validation: build `H`
with the template's flags, add one node per block (step 4, `quotientBase`),
materialize the edges (steps 5–6, `quotientEdgesList`), and relabel to
partition-order integers when requested (step 7). -/
def quotientH (G : Graph) (partition : List (Finset Nat))
    (edge_relation : Option (Finset Nat → Finset Nat → Bool))
    (node_data : Option (Finset Nat → Attr))
    (edge_data : Option (Finset Nat → Finset Nat → Attr))
    (relabel : Bool) (create_using : Option GraphKind) : Graph :=
  let H := quotientBase G partition node_data create_using
  let qedges := quotientEdgesList G partition edge_relation node_data edge_data
    create_using
  let H := H.addEdgesFrom qedges
  let H := if relabel then relabel_nodes H (relabelMapping partition) else H
  H

/-- See `quotientH` for the successful branch. -/
def quotient_graph_impl (G : Graph) (partition : List (Finset Nat))
    (edge_relation : Option (Finset Nat → Finset Nat → Bool))
    (node_data : Option (Finset Nat → Attr))
    (edge_data : Option (Finset Nat → Finset Nat → Attr))
    (relabel : Bool) (create_using : Option GraphKind) :
    Graph × Except Err Graph :=
  if ∃ v ∈ G.nodeIds, ¬ partition.countP (fun b => v.memB b) = 1 then
    (G, Except.error Err.partitionInvalid)
  else
    (G, Except.ok (quotientH G partition edge_relation node_data edge_data
      relabel create_using))

/-- The raised error or returned graph of `quotient_graph`. -/
def quotient_graph (G : Graph) (partition : List (Finset Nat))
    (edge_relation : Option (Finset Nat → Finset Nat → Bool))
    (node_data : Option (Finset Nat → Attr))
    (edge_data : Option (Finset Nat → Finset Nat → Attr))
    (relabel : Bool) (create_using : Option GraphKind) : Except Err Graph :=
  (quotient_graph_impl G partition edge_relation node_data edge_data relabel
    create_using).2

/-- `blockmodel(G, partition, multigraph)`: forwards to `quotient_graph`
with `relabel=True`, and with `create_using=nx.MultiGraph()` — an undirected
multigraph template — when `multigraph` is true. -/
def blockmodel (G : Graph) (partition : List (Finset Nat)) (multigraph : Bool) :
    Except Err Graph :=
  if multigraph then
    quotient_graph G partition none none none true
      (some { directed := false, multigraph := true })
  else
    quotient_graph G partition none none none true none

/-- One step of `equivalence_classes`: scan the existing blocks in order and
append `y` to the first block whose representative (`arbitrary_element`, the
first element of the list block) is related to `y`; else start a new
singleton block at the end (`blocks.append([y])`). -/
def insertElem (r : Nat → Nat → Bool) (y : Nat) : List (List Nat) → List (List Nat)
  | [] => [[y]]
  | b :: bs => if r b.headI y then (b ++ [y]) :: bs else b :: insertElem r y bs

/-- The block list built by `equivalence_classes` before the final
set-of-frozensets conversion. -/
def eqClassesList (l : List Nat) (r : Nat → Nat → Bool) : List (List Nat) :=
  l.foldl (fun bs y => insertElem r y bs) []

/-- `equivalence_classes(iterable, relation)`:
`{frozenset(block) for block in blocks}`. -/
def equivalence_classes (l : List Nat) (r : Nat → Nat → Bool) : Finset (Finset Nat) :=
  ((eqClassesList l r).map List.toFinset).toFinset

/-- `r` is an equivalence relation on the elements of `l` (the unchecked
caller contract of `equivalence_classes`). -/
def IsEquivOn (l : List Nat) (r : Nat → Nat → Bool) : Prop :=
  (∀ x ∈ l, r x x = true) ∧
  (∀ x ∈ l, ∀ y ∈ l, r x y = true → r y x = true) ∧
  (∀ x ∈ l, ∀ y ∈ l, ∀ z ∈ l, r x y = true → r y z = true → r x z = true)

/-- Deduplication keeping the first occurrence, relative to identifiers
already `seen`: the node-key sequence produced by repeated dict insertion. -/
def dedupNew {α : Type} [DecidableEq α] (seen : List α) : List α → List α
  | [] => []
  | x :: xs => if x ∈ seen then dedupNew seen xs else x :: dedupNew (x :: seen) xs

/-- The node set of the partly built quotient graph, at specification level:
the distinct blocks of the partition, first occurrences first. -/
def specQuotientBlocks (partition : List (Finset Nat)) : List (Finset Nat) :=
  dedupNew [] partition

/-- Every node of `G` lies in exactly one block of the partition: the
validity condition checked by `quotient_graph`. -/
def ValidPartition (G : Graph) (partition : List (Finset Nat)) : Prop :=
  ∀ v ∈ G.nodeIds, partition.countP (fun b => v.memB b) = 1

/-- The block-pair enumeration of `quotient_graph` step 5: ordered pairs for
a directed quotient, unordered pairs (each once) otherwise. -/
def blockPairsOf (K : GraphKind) (bs : List (Finset Nat)) : List (Finset Nat × Finset Nat) :=
  if K.directed then orderedPairs bs else unorderedPairs bs

/-- The edge relation actually used: the supplied one, else the default. -/
def relOf (G : Graph) (edge_relation : Option (Finset Nat → Finset Nat → Bool)) :
    Finset Nat → Finset Nat → Bool :=
  match edge_relation with
  | some f => f
  | none => defaultEdgeRelation G

/-- Specification-level total weight of the edges of `G` crossing between
blocks `b` and `c` (in either direction), each weightless edge counting 1 —
a plain scan of the whole edge list, with no incidence-based restriction. -/
def specCrossingWeight (G : Graph) (b c : Finset Nat) : Int :=
  (G.edges.filter (crossB b c)).foldl (fun s e => s + weightOf e.2.2) 0

/-- The edge list of a simple quotient graph, at specification level: one
edge per enumerated block pair satisfying the edge relation, carrying the
supplied `edge_data(b, c)` if any, else the default weight aggregate. -/
def specSimpleQuotientEdges (G : Graph) (partition : List (Finset Nat))
    (edge_relation : Option (Finset Nat → Finset Nat → Bool))
    (edge_data : Option (Finset Nat → Finset Nat → Attr))
    (K : GraphKind) : List (NodeId × NodeId × Attr) :=
  (blockPairsOf K (specQuotientBlocks partition)).filterMap
    (fun bc => if relOf G edge_relation bc.1 bc.2 then
        some (NodeId.blk bc.1, NodeId.blk bc.2,
          match edge_data with
          | some f => f bc.1 bc.2
          | none => [("weight", Val.int (specCrossingWeight G bc.1 bc.2))])
      else none)

/-- The edge list of a multigraph quotient, at specification level: for each
enumerated block pair satisfying the edge relation, one edge for each pair
`(u, v)` of members with `v` adjacent to `u` in `G`, carrying
`G.get_edge_data(u, v, default={})`. -/
def specMultiQuotientEdges (G : Graph) (partition : List (Finset Nat))
    (edge_relation : Option (Finset Nat → Finset Nat → Bool))
    (K : GraphKind) : List (NodeId × NodeId × Attr) :=
  ((blockPairsOf K (specQuotientBlocks partition)).filter
      (fun bc => relOf G edge_relation bc.1 bc.2)).flatMap
    (fun bc => (listProd (blockList bc.1) (blockList bc.2)).filterMap
      (fun uv => if G.adjB (NodeId.nat uv.1) (NodeId.nat uv.2) then
          some (NodeId.blk bc.1, NodeId.blk bc.2,
            G.getEdgeData (NodeId.nat uv.1) (NodeId.nat uv.2) [])
        else none))

/-- The output template claimed by the specification for `blockModel`:
"a multigraph variant matching G's directed/undirected variant when
`multigraph` is true, and a simple-graph template otherwise".
Modelled from the spec's words, for comparison with the source. -/
def specBlockmodelTemplate (G : Graph) (multigraph : Bool) : GraphKind :=
  if multigraph then { directed := G.directed, multigraph := true }
  else { directed := G.directed, multigraph := false }

/-- The path graph `0-1-2-3-4-5` of the spec's concrete examples. -/
def path6 : Graph :=
  { directed := false, multigraph := false,
    nodes := [(NodeId.nat 0, []), (NodeId.nat 1, []), (NodeId.nat 2, []),
              (NodeId.nat 3, []), (NodeId.nat 4, []), (NodeId.nat 5, [])],
    edges := [(NodeId.nat 0, NodeId.nat 1, []), (NodeId.nat 1, NodeId.nat 2, []),
              (NodeId.nat 2, NodeId.nat 3, []), (NodeId.nat 3, NodeId.nat 4, []),
              (NodeId.nat 4, NodeId.nat 5, [])] }

/-- The partition `[{0,1},{2,3},{4,5}]` of the spec's concrete examples. -/
def pathPartition : List (Finset Nat) :=
  [({0, 1} : Finset Nat), ({2, 3} : Finset Nat), ({4, 5} : Finset Nat)]

/-- An undirected graph with nodes `0`, `1`, the edge `0-1`, and a self-loop
at `1`: the failing input for the node-count claim about `contracted_nodes`. -/
def selfLoopGraph : Graph :=
  { directed := false, multigraph := false,
    nodes := [(NodeId.nat 0, []), (NodeId.nat 1, [])],
    edges := [(NodeId.nat 0, NodeId.nat 1, []), (NodeId.nat 1, NodeId.nat 1, [])] }

/-- The cycle graph on 5 nodes `0-1-2-3-4-0`. -/
def cycle5 : Graph :=
  { directed := false, multigraph := false,
    nodes := [(NodeId.nat 0, []), (NodeId.nat 1, []), (NodeId.nat 2, []),
              (NodeId.nat 3, []), (NodeId.nat 4, [])],
    edges := [(NodeId.nat 0, NodeId.nat 1, []), (NodeId.nat 1, NodeId.nat 2, []),
              (NodeId.nat 2, NodeId.nat 3, []), (NodeId.nat 3, NodeId.nat 4, []),
              (NodeId.nat 4, NodeId.nat 0, [])] }

/-- A directed simple graph with nodes `0`, `1` and the edge `0 → 1`. -/
def diGraph01 : Graph :=
  { directed := true, multigraph := false,
    nodes := [(NodeId.nat 0, []), (NodeId.nat 1, [])],
    edges := [(NodeId.nat 0, NodeId.nat 1, [])] }

/-- An undirected multigraph with two parallel edges between `0` and `1`,
carrying distinct attribute dicts. -/
def multi01 : Graph :=
  { directed := false, multigraph := true,
    nodes := [(NodeId.nat 0, []), (NodeId.nat 1, [])],
    edges := [(NodeId.nat 0, NodeId.nat 1, [("weight", Val.int 2)]),
              (NodeId.nat 0, NodeId.nat 1, [("weight", Val.int 3)])] }

/-- The partition `[{0},{1}]` into singletons. -/
def singletons01 : List (Finset Nat) :=
  [({0} : Finset Nat), ({1} : Finset Nat)]

/-- An undirected simple graph with nodes `0`, `1` and the edge `0-1`. -/
def edge01 : Graph :=
  { directed := false, multigraph := false,
    nodes := [(NodeId.nat 0, []), (NodeId.nat 1, [])],
    edges := [(NodeId.nat 0, NodeId.nat 1, [])] }

/-- Loop invariant of `equivalence_classes`: every block is non-empty,
holds only elements of the input, each related to the block's representative
(its first element); and representatives of distinct blocks are mutually
unrelated. -/
def EqcInv (l : List Nat) (r : Nat → Nat → Bool) (bs : List (List Nat)) : Prop :=
  (∀ b ∈ bs, b ≠ [] ∧ ∀ z ∈ b, z ∈ l ∧ r b.headI z = true) ∧
  bs.Pairwise (fun b c => r b.headI c.headI = false ∧ r c.headI b.headI = false)

/-- `create_using=None` behaves exactly like passing a template with `G`'s
own flags: the only use of `create_using` is to pick the flags of `H`. -/
theorem quotient_graph_create_using_none (G : Graph) (P : List (Finset Nat))
    (er : Option (Finset Nat → Finset Nat → Bool))
    (nd : Option (Finset Nat → Attr))
    (ed : Option (Finset Nat → Finset Nat → Attr)) (r : Bool) :
    quotient_graph G P er nd ed r none =
      quotient_graph G P er nd ed r (some ⟨G.directed, G.multigraph⟩) := rfl

/-- C6: the three operations leave the input graph exactly as it was: every
mutation of the source targets the freshly built (or copied) result graph
`H`, never `G`.  The `_impl` functions return, next to the result, the input
graph as left behind by the call. -/
theorem c6_inputs_unchanged :
    ∀ (G : Graph) (P : List (Finset Nat))
      (er : Option (Finset Nat → Finset Nat → Bool))
      (nd : Option (Finset Nat → Attr))
      (ed : Option (Finset Nat → Finset Nat → Attr)) (r : Bool)
      (cu : Option GraphKind) (u v : NodeId) (e : NodeId × NodeId) (sl sl' : Bool),
    (quotient_graph_impl G P er nd ed r cu).1 = G ∧
    (contracted_nodes_impl G u v sl).1 = G ∧
    (contracted_edge_impl G e sl').1 = G := by
  intro G P er nd ed r cu u v e sl sl'
  refine ⟨?_, rfl, ?_⟩
  · unfold quotient_graph_impl
    split <;> rfl
  · unfold contracted_edge_impl
    split <;> rfl

/-- C4 (failing input): on a graph with a self-loop at the absorbed node
`v = 1`, `contracted_nodes` reroutes the self-loop to an edge `(u, 1)` and
`add_edges_from` silently re-adds node `1`, so the result still contains `v`
and has as many nodes as the input — contradicting the claim and the
function's own docstring ("only `u` will appear in the returned graph"). -/
theorem c4_selfloop_failing_input :
    (contracted_nodes selfLoopGraph (NodeId.nat 0) (NodeId.nat 1) true).nodeIds.length = 2 ∧
    NodeId.nat 1 ∈ (contracted_nodes selfLoopGraph (NodeId.nat 0) (NodeId.nat 1) true).nodeIds ∧
    (contracted_nodes selfLoopGraph (NodeId.nat 0) (NodeId.nat 1) false).nodeIds.length = 2 ∧
    NodeId.nat 1 ∈ (contracted_nodes selfLoopGraph (NodeId.nat 0) (NodeId.nat 1) false).nodeIds ∧
    selfLoopGraph.nodeIds.length = 2 := by decide

/-- C5: `contracted_edge` fails with `EdgeNotFound` exactly when `(u, v)` is
not an edge of `G` (direction-sensitively for a directed `G`, via
`G.has_edge`), and on an existing edge it returns exactly the graph
`contracted_nodes(G, u, v, self_loops)` returns. -/
theorem c5_contracted_edge_spec :
    ∀ (G : Graph) (u v : NodeId) (sl : Bool),
    (contracted_edge G (u, v) sl = Except.error Err.edgeNotFound ↔ G.adjB u v = false) ∧
    (G.adjB u v = true →
      contracted_edge G (u, v) sl = Except.ok (contracted_nodes G u v sl)) := by
  intro G u v sl
  unfold contracted_edge contracted_edge_impl
  cases hadj : G.adjB u v with
  | true => simp [hadj]
  | false => simp [hadj]

/-- Witness for C5 on the spec's cycle graph `C5`: `(1, 3)` is not an edge
and is rejected; `(0, 1)` is an edge and the call returns the merge. -/
theorem c5_contracted_edge_spec_witness :
    contracted_edge cycle5 (NodeId.nat 1, NodeId.nat 3) true =
      Except.error Err.edgeNotFound ∧
    contracted_edge cycle5 (NodeId.nat 0, NodeId.nat 1) false =
      Except.ok (contracted_nodes cycle5 (NodeId.nat 0) (NodeId.nat 1) false) :=
  ⟨(c5_contracted_edge_spec cycle5 (NodeId.nat 1) (NodeId.nat 3) true).1.mpr (by decide),
   (c5_contracted_edge_spec cycle5 (NodeId.nat 0) (NodeId.nat 1) false).2 (by decide)⟩

/-- C3: `quotient_graph` with an explicit block collection fails with
`PartitionInvalid` exactly when some node of `G` lies in zero blocks or in
more than one block; the check precedes any construction of the result (the
error branch returns no graph), and on a valid partition a graph is
returned. -/
theorem c3_partition_validation :
    ∀ (G : Graph) (P : List (Finset Nat))
      (er : Option (Finset Nat → Finset Nat → Bool))
      (nd : Option (Finset Nat → Attr))
      (ed : Option (Finset Nat → Finset Nat → Attr)) (r : Bool)
      (cu : Option GraphKind),
    (quotient_graph G P er nd ed r cu = Except.error Err.partitionInvalid ↔
      ∃ v ∈ G.nodeIds, P.countP (fun b => v.memB b) = 0 ∨
        1 < P.countP (fun b => v.memB b)) ∧
    ((∀ v ∈ G.nodeIds, P.countP (fun b => v.memB b) = 1) →
      ∃ H, quotient_graph G P er nd ed r cu = Except.ok H) := by
  intro G P er nd ed r cu
  by_cases h : ∃ v ∈ G.nodeIds, ¬ P.countP (fun b => v.memB b) = 1
  · have hq : quotient_graph G P er nd ed r cu = Except.error Err.partitionInvalid := by
      unfold quotient_graph quotient_graph_impl
      rw [if_pos h]
    refine ⟨⟨fun _ => ?_, fun _ => hq⟩, fun hall => ?_⟩
    · obtain ⟨v, hv, hne⟩ := h
      exact ⟨v, hv, by omega⟩
    · obtain ⟨v, hv, hne⟩ := h
      exact absurd (hall v hv) hne
  · have hq : ∃ H, quotient_graph G P er nd ed r cu = Except.ok H := by
      unfold quotient_graph quotient_graph_impl
      rw [if_neg h]
      exact ⟨_, rfl⟩
    obtain ⟨H, hH⟩ := hq
    refine ⟨⟨fun hE => ?_, fun hex => ?_⟩, fun _ => ⟨H, hH⟩⟩
    · rw [hH] at hE
      exact absurd hE (by simp)
    · obtain ⟨v, hv, hc⟩ := hex
      exact absurd ⟨v, hv, by omega⟩ h

/-- Witness for C3: on the graph `0-1`, the partition `[{0}]` leaves node 1
uncovered and is rejected; the partition `[{0,1}]` is accepted. -/
theorem c3_partition_validation_witness :
    quotient_graph edge01 [({0} : Finset Nat)] none none none false none =
      Except.error Err.partitionInvalid ∧
    ∃ H, quotient_graph edge01 [({0, 1} : Finset Nat)] none none none false none =
      Except.ok H :=
  ⟨(c3_partition_validation edge01 [({0} : Finset Nat)] none none none false none).1.mpr
      (by decide),
   (c3_partition_validation edge01 [({0, 1} : Finset Nat)] none none none false none).2
      (by decide)⟩

/-- C7 (counterexample): for the directed graph `0 → 1` and the singleton
partition, `blockmodel(G, P, multigraph=True)` is *not* the quotient built
on a multigraph template matching `G`'s directed variant: the source always
passes the undirected `nx.MultiGraph()` template, so the result is
undirected while the claimed call produces a directed multigraph. -/
theorem c7_blockmodel_counterexample :
    blockmodel diGraph01 singletons01 true ≠
      quotient_graph diGraph01 singletons01 none none none true
        (some (specBlockmodelTemplate diGraph01 true)) := by
  intro h
  have hL : (blockmodel diGraph01 singletons01 true).toOption.map Graph.directed
      = some false := rfl
  have hR : (quotient_graph diGraph01 singletons01 none none none true
      (some (specBlockmodelTemplate diGraph01 true))).toOption.map Graph.directed
      = some true := rfl
  rw [h] at hL
  have hcontra := hL.symm.trans hR
  simp at hcontra

/-- C7 (amended): `blockmodel(G, P, m)` equals `quotient_graph` with
`relabel=True` and, when `m` is true, the fixed *undirected* multigraph
template `nx.MultiGraph()` (regardless of `G`'s variant); when `m` is false
no template is passed, which is the same as a template carrying exactly
`G`'s own directed and multigraph flags (so for a multigraph `G` the result
is again a multigraph, not a simple graph). -/
theorem c7_blockmodel_amended :
    ∀ (G : Graph) (P : List (Finset Nat)) (m : Bool),
    blockmodel G P m = quotient_graph G P none none none true
      (some (if m then ⟨false, true⟩ else ⟨G.directed, G.multigraph⟩)) := by
  intro G P m
  cases m with
  | true => rfl
  | false =>
      show quotient_graph G P none none none true none = _
      exact quotient_graph_create_using_none G P none none none true

/-- C1 (counterexample): for the undirected multigraph with two parallel
edges `0-1` and the singleton partition, the multigraph quotient has only
one edge between the two blocks, although two original edges cross between
them — the source adds one quotient edge per adjacent *node pair*, not per
original edge, so the claim "one edge in H for every original edge"
(with that edge's own data) fails as soon as `G` has parallel edges. -/
theorem c1_multigraph_counterexample :
    ¬ ((quotient_graph multi01 singletons01 none none none false none).toOption.map
        (fun H => H.edges.length) =
      some (multi01.edges.filter (crossB ({0} : Finset Nat) ({1} : Finset Nat))).length) := by
  decide

theorem dedupNew_congr {α : Type} [DecidableEq α] :
    ∀ (l s₁ s₂ : List α), (∀ a, a ∈ s₁ ↔ a ∈ s₂) →
      dedupNew s₁ l = dedupNew s₂ l := by
  intro l
  induction l with
  | nil => intro s₁ s₂ h; rfl
  | cons x xs ih =>
      intro s₁ s₂ h
      simp only [dedupNew]
      by_cases hx : x ∈ s₁
      · rw [if_pos hx, if_pos ((h x).1 hx)]
        exact ih s₁ s₂ h
      · rw [if_neg hx, if_neg (fun hc => hx ((h x).2 hc))]
        rw [ih (x :: s₁) (x :: s₂) (by intro a; simp [List.mem_cons, h a])]

theorem dedupNew_mem_iff {α : Type} [DecidableEq α] :
    ∀ (l seen : List α) (a : α),
      a ∈ dedupNew seen l ↔ a ∈ l ∧ a ∉ seen := by
  intro l
  induction l with
  | nil => intro seen a; simp [dedupNew]
  | cons x xs ih =>
      intro seen a
      simp only [dedupNew]
      by_cases hx : x ∈ seen
      · rw [if_pos hx, ih]
        constructor
        · rintro ⟨h1, h2⟩
          exact ⟨List.mem_cons_of_mem _ h1, h2⟩
        · rintro ⟨h1, h2⟩
          rcases List.mem_cons.mp h1 with h | h
          · exact absurd (h ▸ hx) h2
          · exact ⟨h, h2⟩
      · rw [if_neg hx]
        simp only [List.mem_cons, ih]
        constructor
        · rintro (h | ⟨h1, h2⟩)
          · exact ⟨Or.inl h, h ▸ hx⟩
          · exact ⟨Or.inr h1, fun hc => h2 (Or.inr hc)⟩
        · rintro ⟨h1, h2⟩
          by_cases hax : a = x
          · exact Or.inl hax
          · rcases h1 with h | h
            · exact Or.inl h
            · exact Or.inr ⟨h, by simp [List.mem_cons, hax, h2]⟩

theorem dedupNew_nodup {α : Type} [DecidableEq α] :
    ∀ (l seen : List α), (dedupNew seen l).Nodup := by
  intro l
  induction l with
  | nil => intro seen; simp [dedupNew]
  | cons x xs ih =>
      intro seen
      simp only [dedupNew]
      by_cases hx : x ∈ seen
      · rw [if_pos hx]; exact ih seen
      · rw [if_neg hx]
        refine List.nodup_cons.mpr ⟨fun hc => ?_, ih (x :: seen)⟩
        exact ((dedupNew_mem_iff xs (x :: seen) x).1 hc).2 (List.mem_cons_self x seen)

theorem dedupNew_eq_self {α : Type} [DecidableEq α] :
    ∀ (l seen : List α), l.Nodup → (∀ a ∈ l, a ∉ seen) → dedupNew seen l = l := by
  intro l
  induction l with
  | nil => intro seen _ _; rfl
  | cons x xs ih =>
      intro seen hnd hdis
      simp only [dedupNew]
      rw [if_neg (hdis x (List.mem_cons_self x xs))]
      congr 1
      refine ih (x :: seen) (List.Nodup.of_cons hnd) ?_
      intro a ha hc
      rcases List.mem_cons.mp hc with h | h
      · exact (List.nodup_cons.mp hnd).1 (h ▸ ha)
      · exact hdis a (List.mem_cons_of_mem _ ha) h

theorem dedupNew_map_inj {α β : Type} [DecidableEq α] [DecidableEq β]
    (f : α → β) (hf : ∀ a b, f a = f b → a = b) :
    ∀ (l seen : List α),
      dedupNew (seen.map f) (l.map f) = (dedupNew seen l).map f := by
  intro l
  induction l with
  | nil => intro seen; rfl
  | cons x xs ih =>
      intro seen
      simp only [List.map_cons, dedupNew]
      by_cases hx : x ∈ seen
      · rw [if_pos (List.mem_map_of_mem f hx), if_pos hx]
        exact ih seen
      · have hxm : f x ∉ seen.map f := by
          intro hc
          obtain ⟨a, ha, hfa⟩ := List.mem_map.mp hc
          exact hx ((hf a x hfa) ▸ ha)
        rw [if_neg hxm, if_neg hx, List.map_cons]
        congr 1
        have h2 := ih (x :: seen)
        simpa [List.map_cons] using h2

theorem map_fst_keyPreserving {β : Type} (l : List (NodeId × β))
    (f : NodeId × β → NodeId × β) (hf : ∀ p, (f p).1 = p.1) :
    (l.map f).map Prod.fst = l.map Prod.fst := by
  induction l with
  | nil => rfl
  | cons p l ih => simp [hf, ih]

theorem addNode_nodeIds (G : Graph) (n : NodeId) (d : Attr) :
    (G.addNode n d).nodeIds =
      if n ∈ G.nodeIds then G.nodeIds else G.nodeIds ++ [n] := by
  unfold Graph.addNode
  by_cases h : n ∈ G.nodeIds
  · rw [if_pos h, if_pos h]
    show ((G.nodes.map _).map Prod.fst) = G.nodes.map Prod.fst
    refine map_fst_keyPreserving G.nodes _ ?_
    intro p
    by_cases hpn : p.1 = n <;> simp [hpn]
  · rw [if_neg h, if_neg h]
    simp [Graph.nodeIds]

theorem addNode_flags (G : Graph) (n : NodeId) (d : Attr) :
    (G.addNode n d).directed = G.directed ∧
    (G.addNode n d).multigraph = G.multigraph ∧
    (G.addNode n d).edges = G.edges := by
  unfold Graph.addNode
  split <;> exact ⟨rfl, rfl, rfl⟩

theorem addNodesFrom_nodeIds :
    ∀ (l : List (NodeId × Attr)) (G : Graph),
      (G.addNodesFrom l).nodeIds =
        G.nodeIds ++ dedupNew G.nodeIds (l.map Prod.fst) := by
  intro l
  induction l with
  | nil => intro G; simp [Graph.addNodesFrom, dedupNew]
  | cons p l ih =>
      intro G
      have hstep : G.addNodesFrom (p :: l) = (G.addNode p.1 p.2).addNodesFrom l := rfl
      rw [hstep, ih, addNode_nodeIds]
      by_cases h : p.1 ∈ G.nodeIds
      · rw [if_pos h]
        simp only [List.map_cons, dedupNew, if_pos h]
      · rw [if_neg h]
        simp only [List.map_cons, dedupNew, if_neg h]
        rw [List.append_assoc]
        congr 1
        show [p.1] ++ dedupNew (G.nodeIds ++ [p.1]) (l.map Prod.fst) =
          p.1 :: dedupNew (p.1 :: G.nodeIds) (l.map Prod.fst)
        rw [List.singleton_append]
        congr 1
        refine dedupNew_congr _ _ _ ?_
        intro a
        simp [List.mem_append, List.mem_cons, or_comm]

theorem addNodesFrom_flags :
    ∀ (l : List (NodeId × Attr)) (G : Graph),
      (G.addNodesFrom l).directed = G.directed ∧
      (G.addNodesFrom l).multigraph = G.multigraph ∧
      (G.addNodesFrom l).edges = G.edges := by
  intro l
  induction l with
  | nil => intro G; exact ⟨rfl, rfl, rfl⟩
  | cons p l ih =>
      intro G
      have hstep : G.addNodesFrom (p :: l) = (G.addNode p.1 p.2).addNodesFrom l := rfl
      rw [hstep]
      obtain ⟨h1, h2, h3⟩ := ih (G.addNode p.1 p.2)
      obtain ⟨g1, g2, g3⟩ := addNode_flags G p.1 p.2
      exact ⟨h1.trans g1, h2.trans g2, h3.trans g3⟩

theorem addEdge_nodes_of_mem (G : Graph) (u v : NodeId) (d : Attr)
    (hu : u ∈ G.nodeIds) (hv : v ∈ G.nodeIds) :
    (G.addEdge u v d).nodes = G.nodes := by
  simp only [Graph.addEdge, if_pos hu, if_pos hv]
  split
  · rfl
  · split <;> rfl

theorem addEdge_flags (G : Graph) (u v : NodeId) (d : Attr) :
    (G.addEdge u v d).directed = G.directed ∧
    (G.addEdge u v d).multigraph = G.multigraph := by
  simp only [Graph.addEdge]
  repeat' split
  all_goals exact ⟨rfl, rfl⟩

theorem addEdgesFrom_nodes_of_mem :
    ∀ (es : List (NodeId × NodeId × Attr)) (G : Graph),
      (∀ e ∈ es, e.1 ∈ G.nodeIds ∧ e.2.1 ∈ G.nodeIds) →
      (G.addEdgesFrom es).nodes = G.nodes := by
  intro es
  induction es with
  | nil => intro G h; rfl
  | cons e es ih =>
      intro G h
      have h1 := (h e (List.mem_cons_self e es)).1
      have h2 := (h e (List.mem_cons_self e es)).2
      have hAE := addEdge_nodes_of_mem G e.1 e.2.1 e.2.2 h1 h2
      have hIds : (G.addEdge e.1 e.2.1 e.2.2).nodeIds = G.nodeIds := by
        simp [Graph.nodeIds, hAE]
      have hstep : G.addEdgesFrom (e :: es) = (G.addEdge e.1 e.2.1 e.2.2).addEdgesFrom es := rfl
      have hrec := ih (G.addEdge e.1 e.2.1 e.2.2)
        (by intro e' he'; rw [hIds]; exact h e' (List.mem_cons_of_mem _ he'))
      rw [hstep, hrec, hAE]

theorem unorderedPairs_mem {α : Type} :
    ∀ (l : List α) (p : α × α), p ∈ unorderedPairs l → p.1 ∈ l ∧ p.2 ∈ l := by
  intro l
  induction l with
  | nil => intro p h; simp [unorderedPairs] at h
  | cons x xs ih =>
      intro p h
      simp only [unorderedPairs, List.mem_append, List.mem_map] at h
      rcases h with ⟨y, hy, rfl⟩ | h
      · exact ⟨List.mem_cons_self _ _, List.mem_cons_of_mem _ hy⟩
      · obtain ⟨h1, h2⟩ := ih p h
        exact ⟨List.mem_cons_of_mem _ h1, List.mem_cons_of_mem _ h2⟩

theorem orderedPairs_mem {α : Type} [DecidableEq α] (l : List α) (p : α × α)
    (h : p ∈ orderedPairs l) : p.1 ∈ l ∧ p.2 ∈ l := by
  simp only [orderedPairs, List.mem_flatMap, List.mem_map, List.mem_filter] at h
  obtain ⟨x, hx, y, ⟨hy, _⟩, rfl⟩ := h
  exact ⟨hx, hy⟩

theorem blockNodes_mem (G : Graph) (b : Finset Nat) (h : b ∈ G.blockNodes) :
    NodeId.blk b ∈ G.nodeIds := by
  unfold Graph.blockNodes at h
  obtain ⟨n, hn, hmatch⟩ := List.mem_filterMap.mp h
  cases n with
  | nat k => simp at hmatch
  | blk b' =>
      simp only [Option.some.injEq] at hmatch
      exact hmatch ▸ hn

theorem filterMap_some_eq {α : Type} : ∀ (l : List α), l.filterMap (fun a => some a) = l := by
  intro l
  induction l with
  | nil => rfl
  | cons x xs ih => simp [List.filterMap_cons, ih]

theorem count_le_countP {α : Type} [DecidableEq α] :
    ∀ (l : List α) (p : α → Bool) (a : α), p a = true → l.count a ≤ l.countP p := by
  intro l p a h
  induction l with
  | nil => simp
  | cons x xs ih =>
      rw [List.count_cons, List.countP_cons]
      by_cases hx : x = a
      · subst hx
        simp [h]; omega
      · have hbeq : (x == a) = false := beq_eq_false_iff_ne.mpr hx
        cases hp : p x <;> simp [hbeq, hp] <;> omega

theorem quotientBase_nodeIds (G : Graph) (P : List (Finset Nat))
    (nd : Option (Finset Nat → Attr)) (cu : Option GraphKind) :
    (quotientBase G P nd cu).nodeIds = (specQuotientBlocks P).map NodeId.blk := by
  have h1 : quotientBase G P nd cu =
      Graph.addNodesFrom
        ⟨(kindOf G cu).directed, (kindOf G cu).multigraph, [], []⟩
        (P.map (fun b => (NodeId.blk b,
          (match nd with | some f => f | none => defaultNodeData G) b))) := rfl
  rw [h1, addNodesFrom_nodeIds]
  have h0 : Graph.nodeIds
      ⟨(kindOf G cu).directed, (kindOf G cu).multigraph, [], []⟩ = [] := rfl
  rw [h0, List.nil_append]
  have hmap : (P.map (fun b => (NodeId.blk b,
      (match nd with | some f => f | none => defaultNodeData G) b))).map Prod.fst
      = P.map NodeId.blk := by
    rw [List.map_map]
    rfl
  rw [hmap]
  show dedupNew (([] : List (Finset Nat)).map NodeId.blk) (P.map NodeId.blk) =
    (dedupNew [] P).map NodeId.blk
  exact dedupNew_map_inj NodeId.blk (fun a b h => by injection h) P []

theorem quotientBase_flags (G : Graph) (P : List (Finset Nat))
    (nd : Option (Finset Nat → Attr)) (cu : Option GraphKind) :
    (quotientBase G P nd cu).directed = (kindOf G cu).directed ∧
    (quotientBase G P nd cu).multigraph = (kindOf G cu).multigraph := by
  have h1 : quotientBase G P nd cu =
      Graph.addNodesFrom
        ⟨(kindOf G cu).directed, (kindOf G cu).multigraph, [], []⟩
        (P.map (fun b => (NodeId.blk b,
          (match nd with | some f => f | none => defaultNodeData G) b))) := rfl
  rw [h1]
  obtain ⟨a, b, _⟩ := addNodesFrom_flags
    (P.map (fun b => (NodeId.blk b,
      (match nd with | some f => f | none => defaultNodeData G) b)))
    ⟨(kindOf G cu).directed, (kindOf G cu).multigraph, [], []⟩
  exact ⟨a, b⟩

theorem quotientBase_blockNodes (G : Graph) (P : List (Finset Nat))
    (nd : Option (Finset Nat → Attr)) (cu : Option GraphKind) :
    (quotientBase G P nd cu).blockNodes = specQuotientBlocks P := by
  unfold Graph.blockNodes
  rw [quotientBase_nodeIds, List.filterMap_map]
  show List.filterMap (fun b => some b) (specQuotientBlocks P) = specQuotientBlocks P
  exact filterMap_some_eq _

theorem quotientEdgesList_mem_nodeIds (G : Graph) (P : List (Finset Nat))
    (er : Option (Finset Nat → Finset Nat → Bool))
    (nd : Option (Finset Nat → Attr))
    (ed : Option (Finset Nat → Finset Nat → Attr)) (cu : Option GraphKind) :
    ∀ e ∈ quotientEdgesList G P er nd ed cu,
      e.1 ∈ (quotientBase G P nd cu).nodeIds ∧
      e.2.1 ∈ (quotientBase G P nd cu).nodeIds := by
  intro e he
  simp only [quotientEdgesList] at he
  split at he
  · rw [List.mem_flatMap] at he
    obtain ⟨bc, hbc, hin⟩ := he
    rw [List.mem_filterMap] at hin
    obtain ⟨uv, huv, hsome⟩ := hin
    split at hsome
    · cases hsome
      have hbc' := (List.mem_filter.mp hbc).1
      have hmem : bc.1 ∈ (quotientBase G P nd cu).blockNodes ∧
          bc.2 ∈ (quotientBase G P nd cu).blockNodes := by
        split at hbc'
        · exact orderedPairs_mem _ _ hbc'
        · exact unorderedPairs_mem _ _ hbc'
      exact ⟨blockNodes_mem _ _ hmem.1, blockNodes_mem _ _ hmem.2⟩
    · cases hsome
  · rw [List.mem_filterMap] at he
    obtain ⟨bc, hbc, hsome⟩ := he
    split at hsome
    · cases hsome
      have hmem : bc.1 ∈ (quotientBase G P nd cu).blockNodes ∧
          bc.2 ∈ (quotientBase G P nd cu).blockNodes := by
        split at hbc
        · exact orderedPairs_mem _ _ hbc
        · exact unorderedPairs_mem _ _ hbc
      exact ⟨blockNodes_mem _ _ hmem.1, blockNodes_mem _ _ hmem.2⟩
    · cases hsome

theorem quotientH_false_nodes (G : Graph) (P : List (Finset Nat))
    (er : Option (Finset Nat → Finset Nat → Bool))
    (nd : Option (Finset Nat → Attr))
    (ed : Option (Finset Nat → Finset Nat → Attr)) (cu : Option GraphKind) :
    (quotientH G P er nd ed false cu).nodes = (quotientBase G P nd cu).nodes := by
  have h1 : quotientH G P er nd ed false cu =
      (quotientBase G P nd cu).addEdgesFrom
        (quotientEdgesList G P er nd ed cu) := rfl
  rw [h1]
  exact addEdgesFrom_nodes_of_mem _ _ (quotientEdgesList_mem_nodeIds G P er nd ed cu)

theorem quotient_graph_ok_of_valid (G : Graph) (P : List (Finset Nat))
    (er : Option (Finset Nat → Finset Nat → Bool))
    (nd : Option (Finset Nat → Attr))
    (ed : Option (Finset Nat → Finset Nat → Attr)) (r : Bool)
    (cu : Option GraphKind) (hval : ValidPartition G P) :
    quotient_graph G P er nd ed r cu = Except.ok (quotientH G P er nd ed r cu) := by
  have hno : ¬ ∃ v ∈ G.nodeIds, ¬ P.countP (fun b => v.memB b) = 1 := by
    push_neg
    exact hval
  unfold quotient_graph quotient_graph_impl
  rw [if_neg hno]

/-- C9: on a partition whose (non-empty) blocks cover the nodes of `G`
exactly once, the quotient graph has exactly one node per block of the
partition. -/
theorem c9_quotient_node_count :
    ∀ (G : Graph) (P : List (Finset Nat))
      (er : Option (Finset Nat → Finset Nat → Bool))
      (nd : Option (Finset Nat → Attr))
      (ed : Option (Finset Nat → Finset Nat → Attr)) (cu : Option GraphKind),
    ValidPartition G P →
    (∀ b ∈ P, b.Nonempty) →
    (∀ b ∈ P, ∀ x ∈ b, NodeId.nat x ∈ G.nodeIds) →
    ∃ H, quotient_graph G P er nd ed false cu = Except.ok H ∧
      H.nodes.length = P.length := by
  intro G P er nd ed cu hval hne hsub
  refine ⟨_, quotient_graph_ok_of_valid G P er nd ed false cu hval, ?_⟩
  have hnodup : P.Nodup := by
    by_contra hnd
    rw [List.nodup_iff_count_le_one] at hnd
    push_neg at hnd
    obtain ⟨b, hb2⟩ := hnd
    have hbP : b ∈ P := List.count_pos_iff.mp (by omega)
    obtain ⟨x, hx⟩ := hne b hbP
    have hxg := hsub b hbP x hx
    have h1 := hval (NodeId.nat x) hxg
    have hle := count_le_countP P (fun bb => (NodeId.nat x).memB bb) b
      (by simp [NodeId.memB, hx])
    omega
  rw [quotientH_false_nodes]
  have hlen : (quotientBase G P nd cu).nodes.length =
      (quotientBase G P nd cu).nodeIds.length := by
    simp [Graph.nodeIds]
  rw [hlen, quotientBase_nodeIds, List.length_map]
  show (dedupNew [] P).length = P.length
  rw [dedupNew_eq_self P [] hnodup (by simp)]

/-- Witness for C9: the spec's path graph and three-block partition give a
three-node quotient. -/
theorem c9_quotient_node_count_witness :
    ∃ H, quotient_graph path6 pathPartition none none none false none = Except.ok H ∧
      H.nodes.length = pathPartition.length :=
  c9_quotient_node_count path6 pathPartition none none none none
    (by unfold ValidPartition; decide) (by decide) (by decide)

theorem memB_empty (v : NodeId) : v.memB (∅ : Finset Nat) = false := by
  cases v <;> simp [NodeId.memB]

/-- C10: empty blocks never make the validity check fail (it quantifies only
over the nodes of `G`), and — since every empty block is the same frozenset —
all of them together contribute exactly one node to the quotient graph: the
empty block itself. -/
theorem c10_empty_blocks :
    ∀ (G : Graph) (P : List (Finset Nat)) (k : Nat),
    ValidPartition G P →
    ValidPartition G (P ++ List.replicate k ∅) ∧
    ∃ H, quotient_graph G (P ++ List.replicate k ∅) none none none false none =
        Except.ok H ∧
      (1 ≤ k →
        NodeId.blk ∅ ∈ H.nodeIds ∧
        H.nodeIds.count (NodeId.blk ∅) = 1 ∧
        H.nodeIds.toFinset = (P.map NodeId.blk).toFinset ∪ {NodeId.blk ∅}) := by
  intro G P k hval
  have hval' : ValidPartition G (P ++ List.replicate k ∅) := by
    intro v hv
    rw [List.countP_append]
    have hrep : (List.replicate k (∅ : Finset Nat)).countP (fun b => v.memB b) = 0 := by
      rw [List.countP_eq_zero]
      intro b hb
      rw [List.eq_of_mem_replicate hb]
      simp [memB_empty]
    rw [hrep, hval v hv]
  refine ⟨hval',
    ⟨_, quotient_graph_ok_of_valid G _ none none none false none hval', ?_⟩⟩
  intro hk
  have hnodes := quotientH_false_nodes G (P ++ List.replicate k ∅) none none none none
  have hids : (quotientH G (P ++ List.replicate k ∅) none none none false none).nodeIds
      = (specQuotientBlocks (P ++ List.replicate k ∅)).map NodeId.blk := by
    unfold Graph.nodeIds
    rw [hnodes]
    exact quotientBase_nodeIds G _ none none
  have hmemD : (∅ : Finset Nat) ∈ specQuotientBlocks (P ++ List.replicate k ∅) := by
    rw [specQuotientBlocks, dedupNew_mem_iff]
    exact ⟨List.mem_append_right _ (List.mem_replicate.mpr ⟨by omega, rfl⟩), by simp⟩
  have hinj : Function.Injective NodeId.blk := fun a b h => by injection h
  refine ⟨?_, ?_, ?_⟩
  · rw [hids]
    exact List.mem_map_of_mem NodeId.blk hmemD
  · rw [hids, List.count_map_of_injective _ NodeId.blk hinj, specQuotientBlocks]
    have hnd := dedupNew_nodup (P ++ List.replicate k (∅ : Finset Nat)) []
    have h1 := List.nodup_iff_count_le_one.mp hnd (∅ : Finset Nat)
    have h2 := List.count_pos_iff.mpr hmemD
    rw [specQuotientBlocks] at h2
    omega
  · apply Finset.ext
    intro a
    simp only [List.mem_toFinset, Finset.mem_union, Finset.mem_singleton, hids,
      List.mem_map, specQuotientBlocks, dedupNew_mem_iff, List.mem_append,
      List.mem_replicate]
    constructor
    · rintro ⟨b, ⟨hb | ⟨_, rfl⟩, _⟩, rfl⟩
      · exact Or.inl ⟨b, hb, rfl⟩
      · exact Or.inr rfl
    · rintro (⟨b, hb, rfl⟩ | rfl)
      · exact ⟨b, ⟨Or.inl hb, by simp⟩, rfl⟩
      · exact ⟨∅, ⟨Or.inr ⟨by omega, rfl⟩, by simp⟩, rfl⟩

/-- Witness for C10: the graph `0-1` with the one-block partition `[{0,1}]`
plus two empty blocks. -/
theorem c10_empty_blocks_witness :
    ValidPartition edge01 ([({0, 1} : Finset Nat)] ++ List.replicate 2 ∅) ∧
    ∃ H, quotient_graph edge01 ([({0, 1} : Finset Nat)] ++ List.replicate 2 ∅)
        none none none false none = Except.ok H ∧
      (1 ≤ 2 →
        NodeId.blk ∅ ∈ H.nodeIds ∧
        H.nodeIds.count (NodeId.blk ∅) = 1 ∧
        H.nodeIds.toFinset =
          ([({0, 1} : Finset Nat)].map NodeId.blk).toFinset ∪ {NodeId.blk ∅}) :=
  c10_empty_blocks edge01 [({0, 1} : Finset Nat)] 2 (by unfold ValidPartition; decide)

theorem addEdge_multi_of_mem (G : Graph) (u v : NodeId) (d : Attr)
    (hu : u ∈ G.nodeIds) (hv : v ∈ G.nodeIds) (hm : G.multigraph = true) :
    G.addEdge u v d = { G with edges := G.edges ++ [(u, v, d)] } := by
  simp [Graph.addEdge, if_pos hu, if_pos hv, hm]

theorem addEdgesFrom_multi :
    ∀ (es : List (NodeId × NodeId × Attr)) (G : Graph), G.multigraph = true →
      (∀ e ∈ es, e.1 ∈ G.nodeIds ∧ e.2.1 ∈ G.nodeIds) →
      (G.addEdgesFrom es).edges = G.edges ++ es := by
  intro es
  induction es with
  | nil => intro G hm h; simp [Graph.addEdgesFrom]
  | cons e es ih =>
      intro G hm h
      have h1 := (h e (List.mem_cons_self e es)).1
      have h2 := (h e (List.mem_cons_self e es)).2
      have hstep : G.addEdgesFrom (e :: es) =
        (G.addEdge e.1 e.2.1 e.2.2).addEdgesFrom es := rfl
      rw [hstep, addEdge_multi_of_mem G e.1 e.2.1 e.2.2 h1 h2 hm]
      have hrec := ih { G with edges := G.edges ++ [(e.1, e.2.1, e.2.2)] } hm
        (by intro e' he'; exact h e' (List.mem_cons_of_mem _ he'))
      rw [hrec]
      show (G.edges ++ [(e.1, e.2.1, e.2.2)]) ++ es = G.edges ++ e :: es
      rw [List.append_assoc]
      rfl

theorem addEdge_simple_fresh (G : Graph) (u v : NodeId) (d : Attr)
    (hu : u ∈ G.nodeIds) (hv : v ∈ G.nodeIds) (hm : G.multigraph = false)
    (hnew : G.edges.any (sameEdgeB G.directed u v) = false) :
    G.addEdge u v d = { G with edges := G.edges ++ [(u, v, d)] } := by
  simp [Graph.addEdge, if_pos hu, if_pos hv, hm, hnew]

theorem addEdgesFrom_simple_fresh :
    ∀ (es : List (NodeId × NodeId × Attr)) (G : Graph), G.multigraph = false →
      (∀ e ∈ es, e.1 ∈ G.nodeIds ∧ e.2.1 ∈ G.nodeIds) →
      (∀ e ∈ es, G.edges.any (sameEdgeB G.directed e.1 e.2.1) = false) →
      es.Pairwise (fun e₁ e₂ => sameEdgeB G.directed e₂.1 e₂.2.1 e₁ = false) →
      (G.addEdgesFrom es).edges = G.edges ++ es := by
  intro es
  induction es with
  | nil => intro G _ _ _ _; simp [Graph.addEdgesFrom]
  | cons e es ih =>
      intro G hm hmem hfresh hpw
      have h1 := (hmem e (List.mem_cons_self e es)).1
      have h2 := (hmem e (List.mem_cons_self e es)).2
      have hAE := addEdge_simple_fresh G e.1 e.2.1 e.2.2 h1 h2 hm
        (hfresh e (List.mem_cons_self e es))
      have hstep : G.addEdgesFrom (e :: es) =
        (G.addEdge e.1 e.2.1 e.2.2).addEdgesFrom es := rfl
      rw [hstep, hAE]
      have hpwtail := List.pairwise_cons.mp hpw
      have hrec := ih { G with edges := G.edges ++ [(e.1, e.2.1, e.2.2)] } hm
        (by intro e' he'; exact hmem e' (List.mem_cons_of_mem _ he'))
        (by
          intro e' he'
          show (G.edges ++ [(e.1, e.2.1, e.2.2)]).any
            (sameEdgeB G.directed e'.1 e'.2.1) = false
          rw [List.any_append, hfresh e' (List.mem_cons_of_mem _ he')]
          simp only [List.any_cons, List.any_nil, Bool.or_false, Bool.false_or]
          exact hpwtail.1 e' he')
        (hpwtail.2)
      rw [hrec]
      show (G.edges ++ [(e.1, e.2.1, e.2.2)]) ++ es = G.edges ++ e :: es
      rw [List.append_assoc]
      rfl

theorem memB_union (v : NodeId) (b c : Finset Nat) :
    v.memB (b ∪ c) = (v.memB b || v.memB c) := by
  cases v with
  | nat n => simp [NodeId.memB, Finset.mem_union]
  | blk _ => simp [NodeId.memB]

theorem crossB_fst_mem (b c : Finset Nat) (e : NodeId × NodeId × Attr)
    (h : crossB b c e = true) : e.1.memB (b ∪ c) = true := by
  simp only [crossB, Bool.or_eq_true, Bool.and_eq_true] at h
  rw [memB_union]
  rcases h with ⟨h1, _⟩ | ⟨h1, _⟩ <;> simp [h1]

theorem defaultEdgeData_eq_spec (G : Graph) (b c : Finset Nat) :
    defaultEdgeData G b c = [("weight", Val.int (specCrossingWeight G b c))] := by
  unfold defaultEdgeData specCrossingWeight
  have hfilter : (G.edgesNbunch (b ∪ c)).filter (crossB b c) =
      G.edges.filter (crossB b c) := by
    unfold Graph.edgesNbunch
    split
    · rw [List.filter_filter]
      refine List.filter_congr ?_
      intro e he
      cases hc : crossB b c e
      · simp
      · simp [crossB_fst_mem b c e hc]
    · rw [List.filter_filter]
      refine List.filter_congr ?_
      intro e he
      cases hc : crossB b c e
      · simp
      · simp [crossB_fst_mem b c e hc]
  rw [hfilter]

theorem orderedPairs_nodup {α : Type} [DecidableEq α] (l : List α) (h : l.Nodup) :
    (orderedPairs l).Nodup := by
  unfold orderedPairs
  rw [List.nodup_flatMap]
  constructor
  · intro x hx
    refine List.Nodup.map ?_ (h.filter _)
    intro a b hab
    injection hab
  · refine h.imp ?_
    intro a b hab
    intro p hp hq
    obtain ⟨y1, _, rfl⟩ := List.mem_map.mp hp
    obtain ⟨y2, _, hEq⟩ := List.mem_map.mp hq
    injection hEq with hE1 hE2
    exact hab hE1.symm

theorem unorderedPairs_pairwise {α : Type} :
    ∀ (l : List α), l.Nodup →
      (unorderedPairs l).Pairwise (fun p q => p ≠ q ∧ p ≠ (q.2, q.1)) := by
  intro l
  induction l with
  | nil => intro _; constructor
  | cons x xs ih =>
      intro h
      have hx := (List.nodup_cons.mp h).1
      have hxs := (List.nodup_cons.mp h).2
      show ((xs.map (fun y => (x, y))) ++ unorderedPairs xs).Pairwise _
      rw [List.pairwise_append]
      refine ⟨?_, ih hxs, ?_⟩
      · rw [List.pairwise_map]
        refine List.Pairwise.imp_of_mem ?_ hxs
        intro a b ha hb hne
        constructor
        · intro hc
          injection hc with h1 h2
          exact hne h2
        · intro hc
          injection hc with h1 h2
          exact hx (h1 ▸ hb)
      · intro p hp q hq
        obtain ⟨a, ha, rfl⟩ := List.mem_map.mp hp
        have hq12 := unorderedPairs_mem xs q hq
        constructor
        · intro hc
          rw [← hc] at hq12
          exact hx hq12.1
        · intro hc
          injection hc with h1 h2
          exact hx (h1 ▸ hq12.2)

theorem blockPairsOf_pairwise (K : GraphKind) (bs : List (Finset Nat))
    (h : bs.Nodup) :
    (blockPairsOf K bs).Pairwise
      (fun p q => p ≠ q ∧ (K.directed = false → p ≠ (q.2, q.1))) := by
  unfold blockPairsOf
  cases hd : K.directed with
  | false =>
      simp only [if_neg (by simp [hd] : ¬ K.directed = true)]
      refine (unorderedPairs_pairwise bs h).imp ?_
      intro p q hpq
      exact ⟨hpq.1, fun _ => hpq.2⟩
  | true =>
      simp only [if_pos hd]
      refine (orderedPairs_nodup bs h).imp ?_
      intro p q hpq
      refine ⟨hpq, ?_⟩
      intro h0
      exact absurd h0 (by simp)

theorem countP_filterMap_eq {α β : Type} (F : α → Option β) (p : β → Bool) :
    ∀ l : List α, (l.filterMap F).countP p =
      l.countP (fun a => ((F a).map p).getD false) := by
  intro l
  induction l with
  | nil => rfl
  | cons x xs ih =>
      rw [List.filterMap_cons]
      cases hF : F x with
      | none =>
          rw [List.countP_cons]
          simp [hF, ih]
      | some b =>
          rw [List.countP_cons, List.countP_cons]
          simp [hF, ih]

theorem countP_eq_of_nodup_mem {α : Type} [DecidableEq α] :
    ∀ (l : List α) (q : α → Bool) (a : α), l.Nodup → a ∈ l →
      l.countP (fun x => decide (x = a) && q x) = if q a then 1 else 0 := by
  intro l
  induction l with
  | nil => intro q a _ ha; cases ha
  | cons x xs ih =>
      intro q a hnd ha
      rw [List.countP_cons]
      rcases List.mem_cons.mp ha with rfl | hmem
      · have hnotin : a ∉ xs := (List.nodup_cons.mp hnd).1
        have hzero : xs.countP (fun x => decide (x = a) && q x) = 0 := by
          rw [List.countP_eq_zero]
          intro y hy
          simp only [Bool.and_eq_true, decide_eq_true_eq, not_and]
          intro hya
          exact absurd (hya ▸ hy) hnotin
        rw [hzero]
        simp
      · have hax : ¬ (x = a) := by
          intro hc
          exact (List.nodup_cons.mp hnd).1 (hc ▸ hmem)
        rw [ih q a (List.nodup_cons.mp hnd).2 hmem]
        simp [hax]

theorem addEdgesFrom_flags :
    ∀ (es : List (NodeId × NodeId × Attr)) (G : Graph),
      (G.addEdgesFrom es).directed = G.directed ∧
      (G.addEdgesFrom es).multigraph = G.multigraph := by
  intro es
  induction es with
  | nil => intro G; exact ⟨rfl, rfl⟩
  | cons e es ih =>
      intro G
      have hstep : G.addEdgesFrom (e :: es) =
        (G.addEdge e.1 e.2.1 e.2.2).addEdgesFrom es := rfl
      rw [hstep]
      obtain ⟨h1, h2⟩ := ih (G.addEdge e.1 e.2.1 e.2.2)
      obtain ⟨g1, g2⟩ := addEdge_flags G e.1 e.2.1 e.2.2
      exact ⟨h1.trans g1, h2.trans g2⟩

theorem quotientBase_edges (G : Graph) (P : List (Finset Nat))
    (nd : Option (Finset Nat → Attr)) (cu : Option GraphKind) :
    (quotientBase G P nd cu).edges = [] := by
  have h1 : quotientBase G P nd cu =
      Graph.addNodesFrom
        ⟨(kindOf G cu).directed, (kindOf G cu).multigraph, [], []⟩
        (P.map (fun b => (NodeId.blk b,
          (match nd with | some f => f | none => defaultNodeData G) b))) := rfl
  rw [h1]
  exact (addNodesFrom_flags _ _).2.2

theorem quotientEdgesList_simple_eq (G : Graph) (P : List (Finset Nat))
    (er : Option (Finset Nat → Finset Nat → Bool))
    (nd : Option (Finset Nat → Attr))
    (ed : Option (Finset Nat → Finset Nat → Attr)) (cu : Option GraphKind)
    (hm : (kindOf G cu).multigraph = false) :
    quotientEdgesList G P er nd ed cu =
      specSimpleQuotientEdges G P er ed (kindOf G cu) := by
  obtain ⟨hd, hmg⟩ := quotientBase_flags G P nd cu
  simp only [quotientEdgesList, specSimpleQuotientEdges, blockPairsOf]
  rw [quotientBase_blockNodes, hd, hmg, hm]
  rw [if_neg (by simp)]
  cases ed with
  | some f => rfl
  | none =>
      congr 1
      funext bc
      show (if (relOf G er) bc.1 bc.2 then
          some (NodeId.blk bc.1, NodeId.blk bc.2, defaultEdgeData G bc.1 bc.2)
        else none) = _
      rw [defaultEdgeData_eq_spec]

theorem quotientEdgesList_multi_eq (G : Graph) (P : List (Finset Nat))
    (er : Option (Finset Nat → Finset Nat → Bool))
    (nd : Option (Finset Nat → Attr))
    (ed : Option (Finset Nat → Finset Nat → Attr)) (cu : Option GraphKind)
    (hm : (kindOf G cu).multigraph = true) :
    quotientEdgesList G P er nd ed cu =
      specMultiQuotientEdges G P er (kindOf G cu) := by
  obtain ⟨hd, hmg⟩ := quotientBase_flags G P nd cu
  simp only [quotientEdgesList, specMultiQuotientEdges, blockPairsOf]
  rw [quotientBase_blockNodes, hd, hmg, hm]
  rw [if_pos rfl]
  rfl

theorem quotient_graph_multi_ed_irrel (G : Graph) (P : List (Finset Nat))
    (er : Option (Finset Nat → Finset Nat → Bool))
    (nd : Option (Finset Nat → Attr))
    (ed ed' : Option (Finset Nat → Finset Nat → Attr)) (r : Bool)
    (cu : Option GraphKind) (hm : (kindOf G cu).multigraph = true) :
    quotient_graph G P er nd ed r cu = quotient_graph G P er nd ed' r cu := by
  unfold quotient_graph quotient_graph_impl
  split
  · rfl
  · show Except.ok (quotientH G P er nd ed r cu) =
      Except.ok (quotientH G P er nd ed' r cu)
    congr 1
    unfold quotientH
    rw [quotientEdgesList_multi_eq G P er nd ed cu hm,
        quotientEdgesList_multi_eq G P er nd ed' cu hm]

theorem specSimpleQuotientEdges_pairwise (G : Graph) (P : List (Finset Nat))
    (er : Option (Finset Nat → Finset Nat → Bool))
    (ed : Option (Finset Nat → Finset Nat → Attr)) (K : GraphKind) :
    (specSimpleQuotientEdges G P er ed K).Pairwise
      (fun e₁ e₂ => sameEdgeB K.directed e₂.1 e₂.2.1 e₁ = false) := by
  unfold specSimpleQuotientEdges
  rw [List.pairwise_filterMap]
  have hnd : (specQuotientBlocks P).Nodup := dedupNew_nodup _ _
  refine (blockPairsOf_pairwise K (specQuotientBlocks P) hnd).imp ?_
  intro bc₁ bc₂ h e₁ he₁ e₂ he₂
  split at he₁
  · split at he₂
    · rw [Option.mem_def, Option.some.injEq] at he₁ he₂
      subst he₁
      subst he₂
      refine Bool.eq_false_iff.mpr ?_
      intro hc
      simp only [sameEdgeB, Bool.or_eq_true, Bool.and_eq_true, decide_eq_true_eq,
        NodeId.blk.injEq] at hc
      rcases hc with ⟨ha, hb⟩ | ⟨⟨hd2, ha⟩, hb⟩
      · exact h.1 (Prod.ext ha hb)
      · have hdf : K.directed = false := by
          simpa using hd2
        exact (h.2 hdf) (Prod.ext ha hb)
    · simp at he₂
  · simp at he₁

theorem countP_pairs_lemma (K : GraphKind) (P : List (Finset Nat))
    (rel : Finset Nat × Finset Nat → Bool)
    (payload : Finset Nat × Finset Nat → Attr)
    (bc : Finset Nat × Finset Nat)
    (hbc : bc ∈ blockPairsOf K (specQuotientBlocks P)) :
    ((blockPairsOf K (specQuotientBlocks P)).filterMap
      (fun bc' => if rel bc' then
          some (NodeId.blk bc'.1, NodeId.blk bc'.2, payload bc')
        else none)).countP
      (fun e => decide (e.1 = NodeId.blk bc.1) &&
        decide (e.2.1 = NodeId.blk bc.2)) =
      if rel bc then 1 else 0 := by
  have hnd : (blockPairsOf K (specQuotientBlocks P)).Nodup :=
    (blockPairsOf_pairwise K (specQuotientBlocks P) (dedupNew_nodup _ _)).imp
      (fun h => h.1)
  rw [countP_filterMap_eq]
  have hcongr : ∀ bc' ∈ blockPairsOf K (specQuotientBlocks P),
      (((if rel bc' then
          some (NodeId.blk bc'.1, NodeId.blk bc'.2, payload bc')
        else none).map
        (fun e => decide (e.1 = NodeId.blk bc.1) &&
          decide (e.2.1 = NodeId.blk bc.2))).getD false) = true ↔
      (decide (bc' = bc) && rel bc') = true := by
    intro bc' _
    cases hr : rel bc'
    · simp [hr]
    · simp [hr, Prod.ext_iff]
  rw [List.countP_congr hcongr]
  exact countP_eq_of_nodup_mem _ _ bc hnd hbc

/-- C1 (amended): when the quotient graph is a multigraph, `edge_data` has
no effect on the result, and for each enumerated block pair satisfying the
edge relation the quotient gets one edge per ordered member pair `(u, v)`
with `v` adjacent to `u` in `G`, carrying `G.get_edge_data(u, v)` — for a
simple `G` this is exactly one edge per original crossing edge, carrying
that edge's attribute data unchanged; for a multigraph `G` parallel edges
collapse to one quotient edge per adjacent node pair. -/
theorem c1_amended_multigraph_edges :
    ∀ (G : Graph) (P : List (Finset Nat))
      (er : Option (Finset Nat → Finset Nat → Bool))
      (nd : Option (Finset Nat → Attr))
      (ed ed' : Option (Finset Nat → Finset Nat → Attr))
      (cu : Option GraphKind) (r : Bool),
    ValidPartition G P → (kindOf G cu).multigraph = true →
    quotient_graph G P er nd ed r cu = quotient_graph G P er nd ed' r cu ∧
    ∃ H, quotient_graph G P er nd ed false cu = Except.ok H ∧
      H.edges = specMultiQuotientEdges G P er (kindOf G cu) ∧
      H.multigraph = true := by
  intro G P er nd ed ed' cu r hval hm
  refine ⟨quotient_graph_multi_ed_irrel G P er nd ed ed' r cu hm, ?_⟩
  obtain ⟨hbd, hbm⟩ := quotientBase_flags G P nd cu
  have hbmt : (quotientBase G P nd cu).multigraph = true := hbm.trans hm
  have h1 : quotientH G P er nd ed false cu =
      (quotientBase G P nd cu).addEdgesFrom (quotientEdgesList G P er nd ed cu) := rfl
  refine ⟨_, quotient_graph_ok_of_valid G P er nd ed false cu hval, ?_, ?_⟩
  · rw [h1, addEdgesFrom_multi _ _ hbmt (quotientEdgesList_mem_nodeIds G P er nd ed cu),
        quotientBase_edges, List.nil_append]
    exact quotientEdgesList_multi_eq G P er nd ed cu hm
  · rw [h1]
    exact ((addEdgesFrom_flags _ _).2).trans hbmt

/-- Witness for the amended C1, on the spec's path graph with the undirected
multigraph template of `blockModel(·, ·, multigraph=True)`. -/
theorem c1_amended_multigraph_edges_witness :
    quotient_graph path6 pathPartition none none none false
        (some ⟨false, true⟩) =
      quotient_graph path6 pathPartition none none
        (some (fun _ _ => [])) false (some ⟨false, true⟩) ∧
    ∃ H, quotient_graph path6 pathPartition none none none false
        (some ⟨false, true⟩) = Except.ok H ∧
      H.edges = specMultiQuotientEdges path6 pathPartition none
        (kindOf path6 (some ⟨false, true⟩)) ∧
      H.multigraph = true :=
  c1_amended_multigraph_edges path6 pathPartition none none none
    (some (fun _ _ => [])) (some ⟨false, true⟩) false
    (by unfold ValidPartition; decide) (by decide)

theorem specSimpleQuotientEdges_countP (G : Graph) (P : List (Finset Nat))
    (er : Option (Finset Nat → Finset Nat → Bool))
    (ed : Option (Finset Nat → Finset Nat → Attr)) (K : GraphKind)
    (bc : Finset Nat × Finset Nat)
    (hbc : bc ∈ blockPairsOf K (specQuotientBlocks P)) :
    (specSimpleQuotientEdges G P er ed K).countP
      (fun e => decide (e.1 = NodeId.blk bc.1) &&
        decide (e.2.1 = NodeId.blk bc.2)) =
      if relOf G er bc.1 bc.2 then 1 else 0 :=
  countP_pairs_lemma K P (fun bc' => relOf G er bc'.1 bc'.2)
    (fun bc' => match ed with
      | some f => f bc'.1 bc'.2
      | none => [("weight", Val.int (specCrossingWeight G bc'.1 bc'.2))])
    bc hbc

/-- C2: when the quotient graph is a simple graph, its edge list has exactly
one edge per enumerated block pair satisfying the edge relation, carrying
`edge_data(b, c)` when that function is supplied and otherwise the default
`{'weight': total weight of the edges of G crossing between b and c, 1 per
weightless edge}`. -/
theorem c2_simple_quotient_edges :
    ∀ (G : Graph) (P : List (Finset Nat))
      (er : Option (Finset Nat → Finset Nat → Bool))
      (nd : Option (Finset Nat → Attr))
      (ed : Option (Finset Nat → Finset Nat → Attr)) (cu : Option GraphKind),
    ValidPartition G P → (kindOf G cu).multigraph = false →
    ∃ H, quotient_graph G P er nd ed false cu = Except.ok H ∧
      H.edges = specSimpleQuotientEdges G P er ed (kindOf G cu) ∧
      H.multigraph = false ∧
      (∀ bc ∈ blockPairsOf (kindOf G cu) (specQuotientBlocks P),
        H.edges.countP (fun e => decide (e.1 = NodeId.blk bc.1) &&
          decide (e.2.1 = NodeId.blk bc.2)) =
        if relOf G er bc.1 bc.2 then 1 else 0) := by
  intro G P er nd ed cu hval hm
  obtain ⟨hbd, hbm⟩ := quotientBase_flags G P nd cu
  have hbmf : (quotientBase G P nd cu).multigraph = false := hbm.trans hm
  have hqe := quotientEdgesList_simple_eq G P er nd ed cu hm
  have hmem := quotientEdgesList_mem_nodeIds G P er nd ed cu
  rw [hqe] at hmem
  have hpw : (specSimpleQuotientEdges G P er ed (kindOf G cu)).Pairwise
      (fun e₁ e₂ => sameEdgeB (quotientBase G P nd cu).directed e₂.1 e₂.2.1 e₁
        = false) := by
    rw [hbd]
    exact specSimpleQuotientEdges_pairwise G P er ed (kindOf G cu)
  have hfresh : ∀ e ∈ specSimpleQuotientEdges G P er ed (kindOf G cu),
      (quotientBase G P nd cu).edges.any
        (sameEdgeB (quotientBase G P nd cu).directed e.1 e.2.1) = false := by
    intro e he
    rw [quotientBase_edges]
    rfl
  have h1 : quotientH G P er nd ed false cu =
      (quotientBase G P nd cu).addEdgesFrom (quotientEdgesList G P er nd ed cu) := rfl
  have hedges : (quotientH G P er nd ed false cu).edges =
      specSimpleQuotientEdges G P er ed (kindOf G cu) := by
    rw [h1, hqe, addEdgesFrom_simple_fresh _ _ hbmf hmem hfresh hpw,
        quotientBase_edges, List.nil_append]
  refine ⟨_, quotient_graph_ok_of_valid G P er nd ed false cu hval, hedges, ?_, ?_⟩
  · rw [h1]
    exact ((addEdgesFrom_flags _ _).2).trans hbmf
  · intro bc hbc
    rw [hedges]
    exact specSimpleQuotientEdges_countP G P er ed (kindOf G cu) bc hbc

/-- Witness for C2 on the spec's path graph and three-block partition. -/
theorem c2_simple_quotient_edges_witness :
    ∃ H, quotient_graph path6 pathPartition none none none false none =
        Except.ok H ∧
      H.edges = specSimpleQuotientEdges path6 pathPartition none none
        (kindOf path6 none) ∧
      H.multigraph = false ∧
      (∀ bc ∈ blockPairsOf (kindOf path6 none) (specQuotientBlocks pathPartition),
        H.edges.countP (fun e => decide (e.1 = NodeId.blk bc.1) &&
          decide (e.2.1 = NodeId.blk bc.2)) =
        if relOf path6 none bc.1 bc.2 then 1 else 0) :=
  c2_simple_quotient_edges path6 pathPartition none none none none
    (by unfold ValidPartition; decide) (by decide)

theorem headI_mem {l : List Nat} (h : l ≠ []) : l.headI ∈ l := by
  cases l with
  | nil => exact absurd rfl h
  | cons x xs => exact List.mem_cons_self x xs

theorem headI_append {b : List Nat} (t : List Nat) (h : b ≠ []) :
    (b ++ t).headI = b.headI := by
  cases b with
  | nil => exact absurd rfl h
  | cons x xs => rfl

theorem insertElem_shape (r : Nat → Nat → Bool) (y : Nat) :
    ∀ (bs : List (List Nat)) (b' : List Nat), b' ∈ insertElem r y bs →
      b' ∈ bs ∨ (∃ b ∈ bs, b' = b ++ [y]) ∨ b' = [y] := by
  intro bs
  induction bs with
  | nil =>
      intro b' h
      simp only [insertElem, List.mem_singleton] at h
      exact Or.inr (Or.inr h)
  | cons b bs ih =>
      intro b' h
      simp only [insertElem] at h
      split at h
      · rcases List.mem_cons.mp h with h1 | h1
        · exact Or.inr (Or.inl ⟨b, List.mem_cons_self b bs, h1⟩)
        · exact Or.inl (List.mem_cons_of_mem _ h1)
      · rcases List.mem_cons.mp h with h1 | h1
        · exact Or.inl (h1 ▸ List.mem_cons_self b bs)
        · rcases ih b' h1 with h2 | ⟨c, hc, h2⟩ | h2
          · exact Or.inl (List.mem_cons_of_mem _ h2)
          · exact Or.inr (Or.inl ⟨c, List.mem_cons_of_mem _ hc, h2⟩)
          · exact Or.inr (Or.inr h2)

theorem insertElem_mem_mono (r : Nat → Nat → Bool) (y : Nat) :
    ∀ (bs : List (List Nat)) (z : Nat), (∃ b ∈ bs, z ∈ b) →
      ∃ b' ∈ insertElem r y bs, z ∈ b' := by
  intro bs
  induction bs with
  | nil =>
      intro z h
      obtain ⟨b, hb, _⟩ := h
      cases hb
  | cons b bs ih =>
      intro z h
      obtain ⟨c, hc, hz⟩ := h
      simp only [insertElem]
      split
      · rcases List.mem_cons.mp hc with rfl | h1
        · exact ⟨c ++ [y], List.mem_cons_self _ _, List.mem_append_left _ hz⟩
        · exact ⟨c, List.mem_cons_of_mem _ h1, hz⟩
      · rcases List.mem_cons.mp hc with rfl | h1
        · exact ⟨c, List.mem_cons_self _ _, hz⟩
        · obtain ⟨b', hb', hz'⟩ := ih z ⟨c, h1, hz⟩
          exact ⟨b', List.mem_cons_of_mem _ hb', hz'⟩

theorem insertElem_self (r : Nat → Nat → Bool) (y : Nat) :
    ∀ (bs : List (List Nat)), ∃ b' ∈ insertElem r y bs, y ∈ b' := by
  intro bs
  induction bs with
  | nil => exact ⟨[y], List.mem_singleton_self _, List.mem_singleton_self _⟩
  | cons b bs ih =>
      simp only [insertElem]
      split
      · exact ⟨b ++ [y], List.mem_cons_self _ _,
          List.mem_append_right _ (List.mem_singleton_self _)⟩
      · obtain ⟨b', hb', hy'⟩ := ih
        exact ⟨b', List.mem_cons_of_mem _ hb', hy'⟩

theorem insertElem_inv (l : List Nat) (r : Nat → Nat → Bool)
    (hR : ∀ x ∈ l, r x x = true)
    (hS : ∀ x ∈ l, ∀ y ∈ l, r x y = true → r y x = true)
    (y : Nat) (hy : y ∈ l) :
    ∀ (bs : List (List Nat)), EqcInv l r bs → EqcInv l r (insertElem r y bs) := by
  intro bs
  induction bs with
  | nil =>
      intro _
      constructor
      · intro b hb
        simp only [insertElem, List.mem_singleton] at hb
        subst hb
        refine ⟨by simp, ?_⟩
        intro z hz
        rw [List.mem_singleton] at hz
        rw [hz]
        exact ⟨hy, hR y hy⟩
      · simp [insertElem]
  | cons b bs ih =>
      intro hinv
      obtain ⟨hAll, hPw⟩ := hinv
      have hb0 := hAll b (List.mem_cons_self b bs)
      have hPwHead := (List.pairwise_cons.mp hPw).1
      have hPwTail := (List.pairwise_cons.mp hPw).2
      have hAllTail : ∀ c ∈ bs, c ≠ [] ∧ ∀ z ∈ c, z ∈ l ∧ r c.headI z = true :=
        fun c hc => hAll c (List.mem_cons_of_mem _ hc)
      simp only [insertElem]
      split
      case isTrue hr =>
        constructor
        · intro c hc
          rcases List.mem_cons.mp hc with rfl | h1
          · refine ⟨by simp, ?_⟩
            intro z hz
            rw [headI_append _ hb0.1]
            rcases List.mem_append.mp hz with h2 | h2
            · exact hb0.2 z h2
            · rw [List.mem_singleton] at h2
              subst h2
              exact ⟨hy, hr⟩
          · exact hAllTail _ h1
        · rw [List.pairwise_cons]
          refine ⟨?_, hPwTail⟩
          intro c hc
          rw [headI_append _ hb0.1]
          exact hPwHead c hc
      case isFalse hr =>
        have hrF : r b.headI y = false := by
          cases h0 : r b.headI y
          · rfl
          · exact absurd h0 hr
        have hinvTail : EqcInv l r (insertElem r y bs) := ih ⟨hAllTail, hPwTail⟩
        constructor
        · intro c hc
          rcases List.mem_cons.mp hc with rfl | h1
          · exact hb0
          · exact hinvTail.1 c h1
        · rw [List.pairwise_cons]
          refine ⟨?_, hinvTail.2⟩
          intro c' hc'
          have hbl : b.headI ∈ l := (hb0.2 _ (headI_mem hb0.1)).1
          rcases insertElem_shape r y bs c' hc' with h2 | ⟨c, hcmem, rfl⟩ | rfl
          · exact hPwHead c' h2
          · rw [headI_append _ (hAllTail c hcmem).1]
            exact hPwHead c hcmem
          · show r b.headI ([y].headI) = false ∧ r ([y].headI) b.headI = false
            refine ⟨hrF, ?_⟩
            cases h0 : r ([y].headI) b.headI
            · rfl
            · have : r b.headI y = true := hS y hy b.headI hbl h0
              rw [this] at hrF
              exact hrF

theorem eqc_fold_inv (l : List Nat) (r : Nat → Nat → Bool)
    (hR : ∀ x ∈ l, r x x = true)
    (hS : ∀ x ∈ l, ∀ y ∈ l, r x y = true → r y x = true) :
    ∀ (todo : List Nat) (bs : List (List Nat)), (∀ x ∈ todo, x ∈ l) →
      EqcInv l r bs →
      EqcInv l r (todo.foldl (fun bs y => insertElem r y bs) bs) ∧
      (∀ z, (∃ b ∈ bs, z ∈ b) →
        ∃ b ∈ todo.foldl (fun bs y => insertElem r y bs) bs, z ∈ b) ∧
      (∀ y ∈ todo, ∃ b ∈ todo.foldl (fun bs y => insertElem r y bs) bs, y ∈ b) := by
  intro todo
  induction todo with
  | nil =>
      intro bs _ hinv
      refine ⟨hinv, fun z h => h, ?_⟩
      intro y hy
      cases hy
  | cons y todo ih =>
      intro bs hdom hinv
      have hy : y ∈ l := hdom y (List.mem_cons_self y todo)
      have hinv' := insertElem_inv l r hR hS y hy bs hinv
      have hstep : (y :: todo).foldl (fun bs y => insertElem r y bs) bs =
        todo.foldl (fun bs y => insertElem r y bs) (insertElem r y bs) := rfl
      obtain ⟨hF, hmono, hcover⟩ := ih (insertElem r y bs)
        (fun x hx => hdom x (List.mem_cons_of_mem _ hx)) hinv'
      rw [hstep]
      refine ⟨hF, ?_, ?_⟩
      · intro z hz
        exact hmono z (insertElem_mem_mono r y bs z hz)
      · intro x hx
        rcases List.mem_cons.mp hx with rfl | h1
        · exact hmono x (insertElem_self r x bs)
        · exact hcover x h1

theorem eqcInv_unique (l : List Nat) (r : Nat → Nat → Bool)
    (hS : ∀ x ∈ l, ∀ y ∈ l, r x y = true → r y x = true)
    (hT : ∀ x ∈ l, ∀ y ∈ l, ∀ z ∈ l, r x y = true → r y z = true → r x z = true)
    (bs : List (List Nat)) (hinv : EqcInv l r bs)
    (b : List Nat) (hb : b ∈ bs) (c : List Nat) (hc : c ∈ bs)
    (x : Nat) (hxb : x ∈ b) (hxc : x ∈ c) : b = c := by
  by_contra hne
  have hsymR : Symmetric (fun b c : List Nat =>
      r b.headI c.headI = false ∧ r c.headI b.headI = false) :=
    fun u v h => ⟨h.2, h.1⟩
  have hR' := (hinv.2.forall hsymR) hb hc hne
  have hb' := hinv.1 b hb
  have hc' := hinv.1 c hc
  have h1 : r b.headI x = true := (hb'.2 x hxb).2
  have h2 : r c.headI x = true := (hc'.2 x hxc).2
  have hxl : x ∈ l := (hb'.2 x hxb).1
  have hbl : b.headI ∈ l := (hb'.2 _ (headI_mem hb'.1)).1
  have hcl : c.headI ∈ l := (hc'.2 _ (headI_mem hc'.1)).1
  have h3 : r x c.headI = true := hS c.headI hcl x hxl h2
  have h4 : r b.headI c.headI = true := hT b.headI hbl x hxl c.headI hcl h1 h3
  rw [hR'.1] at h4
  exact absurd h4 (by simp)

/-- C8: for a relation that is reflexive, symmetric and transitive on the
input elements, `equivalence_classes` returns blocks in which every input
element appears in exactly one block (duplicates collapse into a single
membership, and this holds for any presentation order of the elements), and
the blocks contain nothing but input elements — so they are disjoint and
their union is the set of input elements. -/
theorem c8_equivalence_classes_partition :
    ∀ (l : List Nat) (r : Nat → Nat → Bool), IsEquivOn l r →
    (∀ x ∈ l, ∃! B, B ∈ equivalence_classes l r ∧ x ∈ B) ∧
    (∀ B ∈ equivalence_classes l r, ∀ x ∈ B, x ∈ l) := by
  intro l r hEq
  obtain ⟨hR, hS, hT⟩ := hEq
  obtain ⟨hinv, _, hcover⟩ := eqc_fold_inv l r hR hS l [] (fun x hx => hx)
    ⟨(by intro b hb; cases hb), List.Pairwise.nil⟩
  constructor
  · intro x hx
    obtain ⟨b, hb, hxb⟩ := hcover x hx
    refine ⟨b.toFinset, ⟨?_, ?_⟩, ?_⟩
    · show b.toFinset ∈ ((eqClassesList l r).map List.toFinset).toFinset
      rw [List.mem_toFinset]
      exact List.mem_map_of_mem List.toFinset hb
    · rw [List.mem_toFinset]
      exact hxb
    · rintro B ⟨hB, hxB⟩
      have hB' : B ∈ (eqClassesList l r).map List.toFinset :=
        List.mem_toFinset.mp hB
      obtain ⟨c, hc, rfl⟩ := List.mem_map.mp hB'
      rw [List.mem_toFinset] at hxB
      have hceq := eqcInv_unique l r hS hT _ hinv c hc b hb x hxB hxb
      rw [hceq]
  · intro B hB x hxB
    have hB' : B ∈ (eqClassesList l r).map List.toFinset :=
      List.mem_toFinset.mp hB
    obtain ⟨c, hc, rfl⟩ := List.mem_map.mp hB'
    rw [List.mem_toFinset] at hxB
    exact ((hinv.1 c hc).2 x hxB).1

/-- Witness for C8: parity on `[0, 1, 2, 3]`. -/
theorem c8_equivalence_classes_partition_witness :
    (∀ x ∈ [0, 1, 2, 3], ∃! B, B ∈ equivalence_classes [0, 1, 2, 3]
      (fun a b => decide (a % 2 = b % 2)) ∧ x ∈ B) ∧
    (∀ B ∈ equivalence_classes [0, 1, 2, 3] (fun a b => decide (a % 2 = b % 2)),
      ∀ x ∈ B, x ∈ [0, 1, 2, 3]) :=
  c8_equivalence_classes_partition [0, 1, 2, 3]
    (fun a b => decide (a % 2 = b % 2)) (by unfold IsEquivOn; decide)
